import Mathlib

/-!
# Verification of the context-craft traversal and accounting core

Shallow embedding of the TypeScript sources:
- `src/utils.ts` (`createLimit`, `collectFiles`, `isBinary`, the binary cache
  and its eviction),
- `src/tokenCounter.ts` (`countTokens`, token cache, eviction),
- `src/getIgnoreParser.ts` (`getIgnoreParser`),
- `src/fileMapGenerator.ts` (`buildTree`, `renderTree`, `generateFileMap`,
  `generateFileMapMultiRoot`).

JavaScript `Map` objects are modeled as insertion-ordered association lists
with distinct keys: `set` on a present key updates the value in place (the
key keeps its original position, as a JS `Map` does), `set` on a fresh key
appends at the back, and iteration order is list order.
-/

namespace ContextCraft

/-- JS `Map.prototype.get`: value of the first binding of `k`. -/
def mapGet {α : Type} (m : List (String × α)) (k : String) : Option α :=
  (m.find? (fun kv => kv.1 = k)).map Prod.snd

/-- JS `Map.prototype.set`: update in place if `k` is bound, else append. -/
def mapSet {α : Type} (m : List (String × α)) (k : String) (v : α) : List (String × α) :=
  if k ∈ m.map Prod.fst then
    m.map (fun kv => if kv.1 = k then (k, v) else kv)
  else m ++ [(k, v)]

/-- `MAX_BINARY_CACHE_SIZE` from `src/utils.ts`. -/
def MAX_BINARY_CACHE_SIZE : Nat := 5000

/-- `MAX_CACHE_SIZE` from `src/tokenCounter.ts`. -/
def MAX_CACHE_SIZE : Nat := 5000

/-- `BinaryCacheEntry` from `src/utils.ts`. -/
structure BinaryCacheEntry where
  isBinary : Bool
  mtime : Nat
deriving DecidableEq, Repr

/-- `TokenCacheEntry` from `src/tokenCounter.ts`. -/
structure TokenCacheEntry where
  tokens : Nat
  mtime : Nat
  size : Nat
deriving DecidableEq, Repr

/-- Shared body of `evictOldestBinaryCacheEntries` / `evictOldestCacheEntries`:
deleting the keys of `entries.slice(0, size - maxSize)` from a JS `Map`
removes the oldest-inserted entries, i.e. drops the front of the
insertion-ordered list. -/
def evictOldestEntries {α : Type} (maxSize : Nat) (m : List (String × α)) : List (String × α) :=
  if m.length > maxSize then m.drop (m.length - maxSize) else m

/-- `evictOldestBinaryCacheEntries` from `src/utils.ts`. -/
def evictOldestBinaryCacheEntries (m : List (String × BinaryCacheEntry)) :
    List (String × BinaryCacheEntry) :=
  evictOldestEntries MAX_BINARY_CACHE_SIZE m

/-- `evictOldestCacheEntries` from `src/tokenCounter.ts`. -/
def evictOldestCacheEntries (m : List (String × TokenCacheEntry)) :
    List (String × TokenCacheEntry) :=
  evictOldestEntries MAX_CACHE_SIZE m

/-- The `tokenCache.set(...); evictOldestCacheEntries();` sequence of
`src/tokenCounter.ts`, iterated over a batch of fresh keys. -/
def insertAllTokens (m : List (String × TokenCacheEntry))
    (kvs : List (String × TokenCacheEntry)) : List (String × TokenCacheEntry) :=
  kvs.foldl (fun acc kv => evictOldestCacheEntries (mapSet acc kv.1 kv.2)) m

/-- The `isBinaryCache.set(...); evictOldestBinaryCacheEntries();` sequence of
`src/utils.ts`, iterated over a batch of fresh keys. -/
def insertAllBinary (m : List (String × BinaryCacheEntry))
    (kvs : List (String × BinaryCacheEntry)) : List (String × BinaryCacheEntry) :=
  kvs.foldl (fun acc kv => evictOldestBinaryCacheEntries (mapSet acc kv.1 kv.2)) m

/-- State of one `createLimit` limiter instance (`src/utils.ts` and
`src/tokenCounter.ts` contain the same function): the ids of currently
running tasks (the source's `running` counter is `runningIds.length`), the
FIFO `queue` of pending task starters, the id handed to the next submission,
and the log of task starts in order. Ids number tasks in submission order. -/
structure LimiterState where
  runningIds : List Nat
  queue : List Nat
  nextId : Nat
  started : List Nat
deriving DecidableEq, Repr

/-- Scheduler events for `createLimit`: a caller submits a task (`limit(fn)`),
or a running task finishes — successfully or not (`fn`'s promise settles and
the `finally` block runs either way). -/
inductive LimiterEvent where
  | submit
  | finish (id : Nat) (success : Bool)
deriving DecidableEq, Repr

/-- The limiter starts with no running tasks and an empty queue. -/
def initLimiter : LimiterState := ⟨[], [], 0, []⟩

/-- One step of `createLimit(concurrency)`: `submit` runs the task at once
when `running < concurrency` and queues it otherwise; `finish` removes the
task (the `finally` block runs on success and on failure alike) and, if the
queue is nonempty and a slot is free, shifts the queue head and starts it. -/
def limiterStep (concurrency : Nat) (s : LimiterState) (e : LimiterEvent) : LimiterState :=
  match e with
  | .submit =>
      if s.runningIds.length < concurrency then
        { s with runningIds := s.runningIds ++ [s.nextId],
                 started := s.started ++ [s.nextId],
                 nextId := s.nextId + 1 }
      else
        { s with queue := s.queue ++ [s.nextId], nextId := s.nextId + 1 }
  | .finish id _success =>
      if id ∈ s.runningIds then
        let r := s.runningIds.erase id
        match s.queue with
        | [] => { s with runningIds := r }
        | q :: rest =>
            if r.length < concurrency then
              { s with runningIds := r ++ [q], queue := rest,
                       started := s.started ++ [q] }
            else { s with runningIds := r }
      else s

/-- Run the limiter from its initial state over a sequence of events. -/
def runLimiter (concurrency : Nat) (events : List LimiterEvent) : LimiterState :=
  events.foldl (limiterStep concurrency) initLimiter

/-- Invariant tying together the limiter's slot accounting and orderings. -/
def LimiterInv (N : Nat) (s : LimiterState) : Prop :=
  s.runningIds.length ≤ N ∧
  (s.queue ≠ [] → s.runningIds.length = N) ∧
  s.queue.Pairwise (· < ·) ∧
  (∀ q ∈ s.queue, q < s.nextId) ∧
  (∀ t ∈ s.started, t < s.nextId) ∧
  s.started.Pairwise (· < ·) ∧
  (∀ q ∈ s.queue, ∀ t ∈ s.started, t < q)

/-- A family of pairwise-distinct path strings, used to instantiate the cache
theorems on concrete inputs. -/
def aKey (i : Nat) : String := String.mk (List.replicate i 'a')

/-- `n` pairwise-distinct path strings in a fixed order. -/
def keyList (n : Nat) : List String := (List.range n).map aKey

/-- A filesystem tree as `collectFiles` observes it through
`vscode.workspace.fs`: a node is a file or a directory with named children;
`statFails` makes `fs.stat` on the node throw, `listFails` makes
`fs.readDirectory` on a directory throw. -/
inductive FsNode where
  | file (statFails : Bool)
  | dir (children : List (String × FsNode)) (statFails : Bool) (listFails : Bool)

/-- A filesystem operation attempted during a traversal, by root-relative
segment path: the target of a `stat` or of a `readDirectory`. -/
inductive FsOp where
  | statOp (segs : List String)
  | listOp (segs : List String)
deriving DecidableEq, Repr

/-- Mutable bookkeeping shared across one `collectFiles` traversal call: the
shared counter object `counter.count`, the number of cap diagnostics
(`console.warn`) emitted, and the trace of filesystem operations attempted. -/
structure TravState where
  count : Nat
  warns : Nat
  ops : List FsOp
deriving DecidableEq, Repr

/-- `path.relative(root.fsPath, uri.fsPath).split(path.sep).join("/")` for a
node addressed by its segment list below the traversal root. -/
def joinRel (segs : List String) : String := String.intercalate "/" segs

mutual

/-- `collectFiles` from `src/utils.ts`. Paths are returned as root-relative
segment lists. The `AbortSignal` is modeled as a constant `signal` flag, the
shared counter as the threaded `TravState` together with the optional
`maxFiles` cap (the claims concern calls that pass a counter). Uncaught
`stat`/`readDirectory` failures surface as `Except.error`, with the state
(the shared counter object) retained as JS exception propagation retains it. -/
def collectFiles (node : FsNode) (segs : List String) (ignores : String → Bool)
    (signal : Bool) (maxFiles : Option Nat) (st : TravState) :
    Except Unit (List (List String)) × TravState :=
  if signal then (.ok [], st) else
  let rel := joinRel segs
  match node with
  | .file statFails =>
      let st1 := { st with ops := st.ops ++ [.statOp segs] }
      if statFails then (.error (), st1)
      else if rel ≠ "" ∧ ignores rel then (.ok [], st1)
      else match maxFiles with
        | some n =>
            if st1.count ≥ n then (.ok [], st1)
            else (.ok [segs], { st1 with count := st1.count + 1 })
        | none => (.ok [segs], st1)
  | .dir children statFails listFails =>
      let st1 := { st with ops := st.ops ++ [.statOp segs] }
      if statFails then (.error (), st1)
      else if rel ≠ "" ∧ ignores (rel ++ "/") then (.ok [], st1)
      else if signal then (.ok [], st1)
      else
        let st2 := { st1 with ops := st1.ops ++ [.listOp segs] }
        if listFails then (.error (), st2)
        else collectChildren children segs ignores signal maxFiles st2

/-- The `for (const [name] of children)` loop body of `collectFiles`:
cancellation check, cap check with its once-per-loop diagnostic, direct
recursion (not through the limiter), and accumulation of nested results. -/
def collectChildren (children : List (String × FsNode)) (segs : List String)
    (ignores : String → Bool) (signal : Bool) (maxFiles : Option Nat)
    (st : TravState) : Except Unit (List (List String)) × TravState :=
  match children with
  | [] => (.ok [], st)
  | (name, child) :: rest =>
      if signal then (.ok [], st)
      else
        match maxFiles with
        | some n =>
            if st.count ≥ n then
              (.ok [], if st.count = n then { st with warns := st.warns + 1 } else st)
            else
              match collectFiles child (segs ++ [name]) ignores signal maxFiles st with
              | (.error e, st1) => (.error e, st1)
              | (.ok nested, st1) =>
                  match collectChildren rest segs ignores signal maxFiles st1 with
                  | (.error e, st2) => (.error e, st2)
                  | (.ok restOut, st2) => (.ok (nested ++ restOut), st2)
        | none =>
              match collectFiles child (segs ++ [name]) ignores signal maxFiles st with
              | (.error e, st1) => (.error e, st1)
              | (.ok nested, st1) =>
                  match collectChildren rest segs ignores signal maxFiles st1 with
                  | (.error e, st2) => (.error e, st2)
                  | (.ok restOut, st2) => (.ok (nested ++ restOut), st2)

end

/-- Concrete traversal input for the cap diagnostic: a root with two
subdirectories, the first holding two files, the second one file. -/
def capDemoTree : FsNode :=
  .dir [("d1", .dir [("f1", .file false), ("f2", .file false)] false false),
        ("d2", .dir [("f3", .file false)] false false)] false false

/-- The spec's pruning example: `dist/a.txt`, `dist/sub/b.txt` under an
ignored `dist`, next to `other.txt`. -/
def distDemoTree : FsNode :=
  .dir [("dist", .dir [("a.txt", .file false),
                       ("sub", .dir [("b.txt", .file false)] false false)] false false),
        ("other.txt", .file false)] false false

/-- `vscode.FileStat` as the classifiers use it: modification time and size. -/
structure FileStat where
  mtime : Nat
  size : Nat
deriving DecidableEq, Repr

/-- The flat filesystem surface consumed by `isBinary`, `countTokens` and
`getIgnoreParser`: `stat` and `readFile` by absolute path, each fallible. -/
structure FileSys where
  stat : String → Except Unit FileStat
  readFile : String → Except Unit (List Nat)

/-- A filesystem surface on which every operation fails. -/
def failFs : FileSys := ⟨fun _ => .error (), fun _ => .error ()⟩

/-- A filesystem whose stat reports a changed mtime and a size beyond the
preview ceiling used below, and whose reads fail. -/
def bigFileFs : FileSys := ⟨fun _ => .ok ⟨2, 101⟩, fun _ => .error ()⟩

/-- A filesystem whose stat matches the cached entries used below and whose
reads fail — witnessing that a cache hit never reads content. -/
def hitFs : FileSys := ⟨fun _ => .ok ⟨1, 10⟩, fun _ => .error ()⟩

/-- A filesystem with a changed mtime and readable text content. -/
def textFs : FileSys := ⟨fun _ => .ok ⟨2, 10⟩, fun _ => .ok [1, 2, 3]⟩

/-- A filesystem with a changed mtime whose content starts with a zero byte,
so it classifies as binary. -/
def binFs : FileSys := ⟨fun _ => .ok ⟨2, 10⟩, fun _ => .ok [0]⟩

/-- The `try { read and classify } catch { binary }` block of `isBinary`
(`src/utils.ts`): the streaming and non-streaming paths both classify on a
zero byte within the first 512 bytes; a read failure classifies as binary;
the verdict is cached only when the earlier stat succeeded. -/
def isBinaryRead (fs : FileSys) (absPath : String)
    (cache : List (String × BinaryCacheEntry)) (stats : Option FileStat) :
    Bool × List (String × BinaryCacheEntry) :=
  match fs.readFile absPath with
  | .ok bytes =>
      let result := (bytes.take 512).any (fun b => b == 0)
      match stats with
      | some st =>
          (result, evictOldestBinaryCacheEntries (mapSet cache absPath ⟨result, st.mtime⟩))
      | none => (result, cache)
  | .error _ =>
      match stats with
      | some st =>
          (true, evictOldestBinaryCacheEntries (mapSet cache absPath ⟨true, st.mtime⟩))
      | none => (true, cache)

/-- `isBinary` from `src/utils.ts`, with the module-level `isBinaryCache`
threaded explicitly. A failed stat skips the cache lookup and falls through
to the read; a cache hit on matching mtime returns the cached verdict
without reading. Every failure is caught; the function always returns. -/
def isBinary (fs : FileSys) (absPath : String)
    (cache : List (String × BinaryCacheEntry)) :
    Bool × List (String × BinaryCacheEntry) :=
  match fs.stat absPath with
  | .ok stats =>
      match mapGet cache absPath with
      | some cached =>
          if cached.mtime = stats.mtime then (cached.isBinary, cache)
          else isBinaryRead fs absPath cache (some stats)
      | none => isBinaryRead fs absPath cache (some stats)
  | .error _ => isBinaryRead fs absPath cache none

/-- The classify-and-read tail of the `countTokens` worker, after the stat,
size-ceiling and cache checks: binary files contribute 0; a read failure is
caught and contributes 0; otherwise the content is tokenized and cached
keyed by the current `(mtime, size)`, with FIFO eviction applied. -/
def countTokensRead (fs : FileSys) (tokenize : List Nat → Nat) (signal : Bool)
    (absPath : String) (stats : FileStat)
    (tc : List (String × TokenCacheEntry)) (bc : List (String × BinaryCacheEntry)) :
    Nat × List (String × TokenCacheEntry) × List (String × BinaryCacheEntry) :=
  if signal then (0, tc, bc) else
  match isBinary fs absPath bc with
  | (true, bc1) => (0, tc, bc1)
  | (false, bc1) =>
      if signal then (0, tc, bc1) else
      match fs.readFile absPath with
      | .error _ => (0, tc, bc1)
      | .ok bytes =>
          let tokens := tokenize bytes
          (tokens,
           evictOldestCacheEntries (mapSet tc absPath ⟨tokens, stats.mtime, stats.size⟩),
           bc1)

/-- The per-path worker of `countTokens` from `src/tokenCounter.ts` (the
closure submitted to the tokenize limiter), with the token cache and binary
cache threaded. `tokenize` stands for `encode(Buffer.toString("utf8")).length`
and `maxPreview` for `MAX_PREVIEW_BYTES`. The worker's `try`/`catch` turns
any `stat`/`readFile` failure into a 0 contribution. -/
def countTokensOne (fs : FileSys) (tokenize : List Nat → Nat) (maxPreview : Nat)
    (signal : Bool) (absPath : String)
    (tc : List (String × TokenCacheEntry)) (bc : List (String × BinaryCacheEntry)) :
    Nat × List (String × TokenCacheEntry) × List (String × BinaryCacheEntry) :=
  if signal then (0, tc, bc) else
  match fs.stat absPath with
  | .error _ => (0, tc, bc)
  | .ok stats =>
      if stats.size > maxPreview then (0, tc, bc)
      else
        match mapGet tc absPath with
        | some cached =>
            if cached.mtime = stats.mtime ∧ cached.size = stats.size then
              (cached.tokens, tc, bc)
            else countTokensRead fs tokenize signal absPath stats tc bc
        | none => countTokensRead fs tokenize signal absPath stats tc bc

/-- `countTokens` from `src/tokenCounter.ts` over a path list: workers run
under the `createLimit(8)` limiter inside `Promise.all`; the single-threaded
interleaving is modeled by threading the caches in submission order. The
aggregate is the sum of the per-file contributions. -/
def countTokens (fs : FileSys) (tokenize : List Nat → Nat) (maxPreview : Nat)
    (signal : Bool) (paths : List String)
    (tc : List (String × TokenCacheEntry)) (bc : List (String × BinaryCacheEntry)) :
    Nat × List (String × TokenCacheEntry) × List (String × BinaryCacheEntry) :=
  if signal then (0, tc, bc) else
  paths.foldl (fun acc p =>
    let r := countTokensOne fs tokenize maxPreview signal p acc.2.1 acc.2.2
    (acc.1 + r.1, r.2.1, r.2.2)) (0, tc, bc)

/-- The `ignore` library matcher as `getIgnoreParser` builds it: an
allocation id distinguishing instances, plus the pattern sources added. -/
structure IgnParser where
  pid : Nat
  patterns : List String
deriving DecidableEq, Repr

/-- One `ignoreParserCache` entry (held in `src/extension.ts`). -/
structure IgnCacheEntry where
  parser : IgnParser
  mtime : Nat
deriving DecidableEq, Repr

/-- Module state for `getIgnoreParser`: the parser cache plus an allocation
counter giving each `ignore()` call a fresh instance id. -/
structure IgnState where
  cache : List (String × IgnCacheEntry)
  nextId : Nat
deriving DecidableEq, Repr

/-- `DEFAULT_IGNORE_PATTERNS` from `src/getIgnoreParser.ts`. -/
def DEFAULT_IGNORE_PATTERNS : List String := [".git/", ".git"]

/-- The read-and-build tail of `getIgnoreParser`, reached when the stat
succeeded and the cache missed (or was stale): a read failure falls to the
catch, which builds a fresh default-only parser without touching the cache;
a successful read builds, caches and returns a fresh parser. -/
def getIgnoreParserLoad (fs : FileSys) (dec : List Nat → String) (rootPath : String)
    (st : IgnState) (stats : FileStat) : IgnParser × IgnState :=
  match fs.readFile (rootPath ++ "/.gitignore") with
  | .error _ =>
      (⟨st.nextId, DEFAULT_IGNORE_PATTERNS⟩, { st with nextId := st.nextId + 1 })
  | .ok bytes =>
      let parser : IgnParser := ⟨st.nextId, DEFAULT_IGNORE_PATTERNS ++ [dec bytes]⟩
      (parser,
       { cache := mapSet st.cache rootPath ⟨parser, stats.mtime⟩,
         nextId := st.nextId + 1 })

/-- `getIgnoreParser` from `src/getIgnoreParser.ts`. `dec` stands for the
UTF-8 decoding of the ignore-file bytes. The `try` wraps stat, cache lookup
and read; a stat failure (missing `.gitignore`) falls to the catch, which
returns a fresh default-only parser and leaves the cache untouched. -/
def getIgnoreParser (fs : FileSys) (dec : List Nat → String) (rootPath : String)
    (st : IgnState) : IgnParser × IgnState :=
  match fs.stat (rootPath ++ "/.gitignore") with
  | .error _ =>
      (⟨st.nextId, DEFAULT_IGNORE_PATTERNS⟩, { st with nextId := st.nextId + 1 })
  | .ok stats =>
      match mapGet st.cache rootPath with
      | some cached =>
          if cached.mtime = stats.mtime then (cached.parser, st)
          else getIgnoreParserLoad fs dec rootPath st stats
      | none => getIgnoreParserLoad fs dec rootPath st stats

/-- `TreeNode` from `src/fileMapGenerator.ts`; `children` is a JS `Map` in
insertion order. -/
inductive TreeNode where
  | node (name : String) (isFile : Bool) (isSelected : Bool)
      (children : List (String × TreeNode))

def TreeNode.name : TreeNode → String
  | .node n _ _ _ => n

def TreeNode.isFile : TreeNode → Bool
  | .node _ f _ _ => f

def TreeNode.isSelected : TreeNode → Bool
  | .node _ _ s _ => s

def TreeNode.children : TreeNode → List (String × TreeNode)
  | .node _ _ _ c => c

/-- The inner `for` over `parts` in `buildTree`, recursively: walk or create
the chain of nodes for one file's relative path segments. `sel` is
`selectedFiles === undefined || selectedFiles.has(filePath)`; re-inserting an
existing leaf only ever turns selection on. -/
def insertParts : TreeNode → List String → Bool → TreeNode
  | t, [], _ => t
  | .node n f s children, part :: rest, sel =>
      let isLast := rest.isEmpty
      let child :=
        match mapGet children part with
        | none => TreeNode.node part isLast (isLast && sel) []
        | some (.node cn cf cs cch) =>
            if isLast && sel then TreeNode.node cn cf true cch
            else TreeNode.node cn cf cs cch
      TreeNode.node n f s (mapSet children part (insertParts child rest sel))

/-- `path.relative(workspaceRoot, filePath).split(path.sep)` for a file lying
under the root, with `/` as separator. -/
def relativeParts (workspaceRoot filePath : String) : List String :=
  (filePath.drop (workspaceRoot.length + 1)).splitOn "/"

/-- `path.basename`, for slash-separated paths. -/
def baseName (s : String) : String := (s.splitOn "/").getLastD ""

/-- `buildTree` from `src/fileMapGenerator.ts`. -/
def buildTree (files : List String) (workspaceRoot : String)
    (selectedFiles : Option (List String)) : TreeNode :=
  files.foldl (fun root filePath =>
    let sel := match selectedFiles with
      | none => true
      | some sf => sf.contains filePath
    insertParts root (relativeParts workspaceRoot filePath) sel)
    (TreeNode.node (baseName workspaceRoot) false false [])

/-- The comparator of `sortChildren`: directories before files, then by name
(`localeCompare` is modeled by code-point order). -/
def nodeLe (a b : TreeNode) : Bool :=
  (!a.isFile && b.isFile) || ((a.isFile == b.isFile) && decide (a.name ≤ b.name))

/-- `sortChildren` from `src/fileMapGenerator.ts`; JS `Array.sort` is stable,
as is `mergeSort`. -/
def sortChildren (children : List (String × TreeNode)) : List TreeNode :=
  (children.map Prod.snd).mergeSort nodeLe

lemma sizeOf_map_snd_le (l : List (String × TreeNode)) :
    sizeOf (l.map Prod.snd) ≤ sizeOf l := by
  induction l with
  | nil => simp
  | cons kv rest ih =>
      cases kv with
      | mk k v =>
          simp only [List.map_cons, List.cons.sizeOf_spec, Prod.mk.sizeOf_spec]
          omega

lemma sortChildren_sizeOf_lt (t : TreeNode) :
    sizeOf (sortChildren t.children) < sizeOf t := by
  have h1 : sizeOf (sortChildren t.children) = sizeOf (t.children.map Prod.snd) :=
    (List.mergeSort_perm (t.children.map Prod.snd) nodeLe).sizeOf_eq_sizeOf
  have h2 := sizeOf_map_snd_le t.children
  have h3 : sizeOf t.children < sizeOf t := by
    cases t with
    | node n f s c =>
        simp [TreeNode.children]
        try omega
  omega

mutual

/-- `renderTree` from `src/fileMapGenerator.ts`, returning the pushed lines.
The root node renders only its children; other nodes render a connector line
(`└── `/`├── `), the selection marker, and their children indented. -/
def renderTree (node : TreeNode) (pfx : String) (isLast : Bool) (isRoot : Bool) :
    List String :=
  if isRoot then renderKids (sortChildren node.children) ""
  else
    let connector := if isLast then "└── " else "├── "
    let marker := if node.isSelected then " *" else ""
    let line := pfx ++ connector ++ node.name ++ marker
    if node.children.length > 0 then
      let newPfx := pfx ++ (if isLast then "    " else "│   ")
      line :: renderKids (sortChildren node.children) newPfx
    else [line]
termination_by sizeOf node
decreasing_by
  · exact sortChildren_sizeOf_lt node
  · exact sortChildren_sizeOf_lt node

/-- The indexed loops over `sortedChildren` in `renderTree`, with the
`childIsLast` flag distinguishing the final sibling. -/
def renderKids (kids : List TreeNode) (pfx : String) : List String :=
  match kids with
  | [] => []
  | [c] => renderTree c pfx true false
  | c :: rest => renderTree c pfx false false ++ renderKids rest pfx
termination_by sizeOf kids
decreasing_by
  all_goals
    simp
    try omega

end

/-- `generateFileMap` from `src/fileMapGenerator.ts`. -/
def generateFileMap (files : List String) (workspaceRoot : String)
    (selectedFiles : Option (List String)) : String :=
  if files.isEmpty then ""
  else
    let tree := buildTree files workspaceRoot selectedFiles
    let lines := workspaceRoot :: renderTree tree "" true true
    "<file_map>\n" ++ String.intercalate "\n" lines
      ++ "\n\n(* denotes selected files)\n</file_map>"

/-- One value of the `filesByWorkspace` map passed to
`generateFileMapMultiRoot`. -/
structure WorkspaceEntry where
  workspaceName : String
  workspacePath : String
  files : List String
deriving DecidableEq, Repr

/-- `generateFileMapMultiRoot` from `src/fileMapGenerator.ts`: each workspace
with files renders under its path header followed by a blank separator line;
a trailing blank line is removed; the wrapper markup is emitted whenever the
map itself is nonempty. -/
def generateFileMapMultiRoot (filesByWorkspace : List (String × WorkspaceEntry))
    (selectedFiles : Option (List String)) : String :=
  if filesByWorkspace.isEmpty then ""
  else
    let allLines := filesByWorkspace.foldl (fun acc kv =>
      if kv.2.files.isEmpty then acc
      else
        let tree := buildTree kv.2.files kv.2.workspacePath selectedFiles
        acc ++ (kv.2.workspacePath :: renderTree tree "" true true) ++ [""]) []
    let trimmed :=
      if allLines ≠ [] ∧ allLines.getLastD "" = "" then allLines.dropLast
      else allLines
    "<file_map>\n" ++ String.intercalate "\n" trimmed ++ "\n</file_map>"

/-- Soundness of pruning for one traversal call at `segs`: every returned path
extends `segs`, and every directory level strictly below `segs` on the way to
a returned path was tested against the ignore matcher and found unignored. -/
def PruneSound (ignores : String → Bool) (segs : List String)
    (out : Except Unit (List (List String)) × TravState) : Prop :=
  ∀ res, out.1 = .ok res → ∀ p ∈ res,
    (∃ suf, p = segs ++ suf) ∧
    (∀ q a b, q = segs ++ a → a ≠ [] → p = q ++ b → b ≠ [] →
      joinRel q ≠ "" → ignores (joinRel q ++ "/") = false)

/-- If a call at `segs` returns any path other than `segs` itself, the
directory `segs` passed the ignore test (unless it is the traversal root). -/
def PruneSoundSelf (ignores : String → Bool) (segs : List String)
    (out : Except Unit (List (List String)) × TravState) : Prop :=
  ∀ res, out.1 = .ok res → ∀ p ∈ res,
    p ≠ segs → joinRel segs ≠ "" → ignores (joinRel segs ++ "/") = false

/-- Counter soundness for one traversal call given cap `n`: the shared counter
never decreases, never passes the cap once below it, and advances by exactly
the number of returned paths. -/
def CountSound (n : Nat) (st : TravState)
    (out : Except Unit (List (List String)) × TravState) : Prop :=
  st.count ≤ out.2.count ∧
  (st.count ≤ n → out.2.count ≤ n) ∧
  (∀ res, out.1 = .ok res → out.2.count = st.count + res.length)

/-- Every size recorded in the token cache is within the preview ceiling: an
invariant of every cache the `countTokens` worker builds, since entries are
only written after the `stats.size > MAX_PREVIEW_BYTES` check. -/
def TokenCacheBounded (maxPreview : Nat) (tc : List (String × TokenCacheEntry)) : Prop :=
  ∀ kv ∈ tc, kv.2.size ≤ maxPreview

lemma mapSet_of_not_mem {α : Type} {m : List (String × α)} {k : String} (v : α)
    (h : k ∉ m.map Prod.fst) : mapSet m k v = m ++ [(k, v)] := by
  simp [mapSet, h]

lemma mapSet_map_fst_of_mem {α : Type} {m : List (String × α)} {k : String} (v : α)
    (h : k ∈ m.map Prod.fst) :
    (mapSet m k v).map Prod.fst = m.map Prod.fst := by
  simp only [mapSet, if_pos h, List.map_map]
  apply List.map_congr_left
  intro kv _
  by_cases hk : kv.1 = k <;> simp [hk]

lemma mapGet_eq_none_of_not_mem {α : Type} {m : List (String × α)} {k : String}
    (h : k ∉ m.map Prod.fst) : mapGet m k = none := by
  have hf : List.find? (fun kv : String × α => kv.1 = k) m = none := by
    rw [List.find?_eq_none]
    intro kv hkv
    simp only [decide_eq_true_eq]
    intro hfst
    exact h (List.mem_map.mpr ⟨kv, hkv, hfst⟩)
  simp [mapGet, hf]

lemma mapGet_isSome_of_mem {α : Type} {m : List (String × α)} {k : String}
    (h : k ∈ m.map Prod.fst) : (mapGet m k).isSome := by
  have hf : (List.find? (fun kv : String × α => kv.1 = k) m).isSome := by
    rw [List.find?_isSome]
    obtain ⟨kv, hkv, hfst⟩ := List.mem_map.mp h
    exact ⟨kv, hkv, by simp [hfst]⟩
  simp only [mapGet]
  cases hfind : List.find? (fun kv : String × α => kv.1 = k) m with
  | none => rw [hfind] at hf; simp at hf
  | some x => simp

lemma evictOldestEntries_eq_drop {α : Type} (maxSize : Nat) (m : List (String × α)) :
    evictOldestEntries maxSize m = m.drop (m.length - maxSize) := by
  unfold evictOldestEntries
  by_cases h : m.length > maxSize
  · simp [h]
  · have : m.length - maxSize = 0 := by omega
    simp [h, this]

/-- Folding `set`-then-evict over a batch of fresh, pairwise-distinct keys keeps
the suffix of the concatenation that fits in the capacity: FIFO eviction. -/
lemma insertAll_fresh {α : Type} (maxSize : Nat) :
    ∀ (kvs : List (String × α)) (m : List (String × α)),
      m.length ≤ maxSize →
      (∀ kv ∈ kvs, kv.1 ∉ m.map Prod.fst) →
      (kvs.map Prod.fst).Nodup →
      kvs.foldl (fun acc kv => evictOldestEntries maxSize (mapSet acc kv.1 kv.2)) m
        = (m ++ kvs).drop ((m.length + kvs.length) - maxSize)
  | [], m, hm, _, _ => by
      have h0 : m.length - maxSize = 0 := by omega
      simp [h0]
  | (k, v) :: rest, m, hm, hfresh, hnd => by
      have hknot : k ∉ m.map Prod.fst := hfresh (k, v) (by simp)
      have hstep : mapSet m k v = m ++ [(k, v)] := mapSet_of_not_mem v hknot
      set d := (m.length + 1) - maxSize with hd
      have hdle : d ≤ m.length + 1 := by omega
      have hev : evictOldestEntries maxSize (mapSet m k v)
          = (m ++ [(k, v)]).drop d := by
        rw [hstep, evictOldestEntries_eq_drop]
        simp [hd]
      set m' := (m ++ [(k, v)]).drop d with hm'
      have hm'len : m'.length = (m.length + 1) - d := by
        simp [hm', List.length_drop]
      have hm'le : m'.length ≤ maxSize := by omega
      have hsub : ∀ x, x ∈ m'.map Prod.fst → x ∈ m.map Prod.fst ∨ x = k := by
        intro x hx
        obtain ⟨kv, hkv, hfst⟩ := List.mem_map.mp hx
        have : kv ∈ m ++ [(k, v)] := List.mem_of_mem_drop hkv
        rcases List.mem_append.mp this with h1 | h1
        · exact Or.inl (List.mem_map.mpr ⟨kv, h1, hfst⟩)
        · simp only [List.mem_singleton] at h1
          subst h1
          exact Or.inr hfst.symm
      have hfresh' : ∀ kv ∈ rest, kv.1 ∉ m'.map Prod.fst := by
        intro kv hkv hx
        rcases hsub _ hx with h1 | h1
        · exact hfresh kv (by simp [hkv]) h1
        · have hknd : k ∉ rest.map Prod.fst := by
            have := hnd
            simp only [List.map_cons, List.nodup_cons] at this
            exact this.1
          exact hknd (List.mem_map.mpr ⟨kv, hkv, h1⟩)
      have hnd' : (rest.map Prod.fst).Nodup := by
        simp only [List.map_cons, List.nodup_cons] at hnd
        exact hnd.2
      have ih := insertAll_fresh maxSize rest m' hm'le hfresh' hnd'
      simp only [List.foldl_cons, hev]
      rw [ih]
      have happ : List.drop d ((m ++ [(k, v)]) ++ rest) = m' ++ rest := by
        rw [hm']
        exact List.drop_append_of_le_length (by simpa using hdle)
      rw [← happ, List.drop_drop]
      have harr : (m ++ [(k, v)]) ++ rest = m ++ (k, v) :: rest := by simp
      rw [harr]
      congr 1
      simp only [List.length_cons]
      omega

lemma aKey_injective : Function.Injective aKey := by
  intro a b h
  have := congrArg (fun s => s.data.length) h
  simpa [aKey] using this

lemma keyList_nodup (n : Nat) : (keyList n).Nodup :=
  (List.nodup_range n).map aKey_injective

lemma keyList_length (n : Nat) : (keyList n).length = n := by
  simp [keyList]

/-- **C8.** Both bounded caches (`isBinaryCache` in `src/utils.ts` and
`tokenCache` in `src/tokenCounter.ts`, capacity 5000 each) evict
oldest-inserted entries: after inserting 5001 distinct keys through the
`set`-then-evict sequence, the key order is exactly the last 5000 inserted
keys, the single oldest-inserted key is absent, and the 5000
most-recently-inserted keys are all present. Lookups never influence the
order, so the choice is FIFO, not access recency. -/
theorem bounded_caches_evict_fifo
    (ks : List String) (vs : List TokenCacheEntry) (ws : List BinaryCacheEntry)
    (hk : ks.length = 5001) (hnd : ks.Nodup)
    (hv : vs.length = 5001) (hw : ws.length = 5001) :
    (insertAllTokens [] (ks.zip vs)).map Prod.fst = ks.drop 1 ∧
    (insertAllBinary [] (ks.zip ws)).map Prod.fst = ks.drop 1 ∧
    (∀ k ∈ ks.take 1, mapGet (insertAllTokens [] (ks.zip vs)) k = none ∧
                      mapGet (insertAllBinary [] (ks.zip ws)) k = none) ∧
    (∀ k ∈ ks.drop 1, (mapGet (insertAllTokens [] (ks.zip vs)) k).isSome ∧
                      (mapGet (insertAllBinary [] (ks.zip ws)) k).isSome) := by
  have hzipT : (ks.zip vs).map Prod.fst = ks :=
    List.map_fst_zip ks vs (by omega)
  have hzipB : (ks.zip ws).map Prod.fst = ks :=
    List.map_fst_zip ks ws (by omega)
  have hlenT : (ks.zip vs).length = 5001 := by
    rw [List.length_zip]; omega
  have hlenB : (ks.zip ws).length = 5001 := by
    rw [List.length_zip]; omega
  have hT : insertAllTokens [] (ks.zip vs) = (ks.zip vs).drop 1 := by
    have := insertAll_fresh (α := TokenCacheEntry) MAX_CACHE_SIZE (ks.zip vs) []
      (by simp [MAX_CACHE_SIZE]) (by simp) (by rw [hzipT]; exact hnd)
    simpa [insertAllTokens, evictOldestCacheEntries, hlenT, MAX_CACHE_SIZE] using this
  have hB : insertAllBinary [] (ks.zip ws) = (ks.zip ws).drop 1 := by
    have := insertAll_fresh (α := BinaryCacheEntry) MAX_BINARY_CACHE_SIZE (ks.zip ws) []
      (by simp [MAX_BINARY_CACHE_SIZE]) (by simp) (by rw [hzipB]; exact hnd)
    simpa [insertAllBinary, evictOldestBinaryCacheEntries, hlenB, MAX_BINARY_CACHE_SIZE]
      using this
  have hkeysT : (insertAllTokens [] (ks.zip vs)).map Prod.fst = ks.drop 1 := by
    rw [hT, List.map_drop, hzipT]
  have hkeysB : (insertAllBinary [] (ks.zip ws)).map Prod.fst = ks.drop 1 := by
    rw [hB, List.map_drop, hzipB]
  refine ⟨hkeysT, hkeysB, ?_, ?_⟩
  · intro k hkmem
    have hdisj := List.disjoint_take_drop (m := 1) (n := 1) hnd (le_refl 1)
    have hnot : k ∉ ks.drop 1 := fun hc => hdisj hkmem hc
    exact ⟨mapGet_eq_none_of_not_mem (by rw [hkeysT]; exact hnot),
           mapGet_eq_none_of_not_mem (by rw [hkeysB]; exact hnot)⟩
  · intro k hkmem
    exact ⟨mapGet_isSome_of_mem (by rw [hkeysT]; exact hkmem),
           mapGet_isSome_of_mem (by rw [hkeysB]; exact hkmem)⟩

/-- Witness for `bounded_caches_evict_fifo` at 5001 concrete distinct keys. -/
theorem bounded_caches_evict_fifo_witness :
    (keyList 5001).length = 5001 ∧ (keyList 5001).Nodup ∧
    ((insertAllTokens [] ((keyList 5001).zip (List.replicate 5001 ⟨0, 0, 0⟩))).map Prod.fst
        = (keyList 5001).drop 1 ∧
     (insertAllBinary [] ((keyList 5001).zip (List.replicate 5001 ⟨false, 0⟩))).map Prod.fst
        = (keyList 5001).drop 1 ∧
     (∀ k ∈ (keyList 5001).take 1,
        mapGet (insertAllTokens [] ((keyList 5001).zip (List.replicate 5001 ⟨0, 0, 0⟩))) k
          = none ∧
        mapGet (insertAllBinary [] ((keyList 5001).zip (List.replicate 5001 ⟨false, 0⟩))) k
          = none) ∧
     (∀ k ∈ (keyList 5001).drop 1,
        (mapGet (insertAllTokens [] ((keyList 5001).zip (List.replicate 5001 ⟨0, 0, 0⟩))) k).isSome ∧
        (mapGet (insertAllBinary [] ((keyList 5001).zip (List.replicate 5001 ⟨false, 0⟩))) k).isSome)) :=
  ⟨keyList_length 5001, keyList_nodup 5001,
   bounded_caches_evict_fifo (keyList 5001)
     (List.replicate 5001 ⟨0, 0, 0⟩) (List.replicate 5001 ⟨false, 0⟩)
     (keyList_length 5001) (keyList_nodup 5001)
     (List.length_replicate 5001 _) (List.length_replicate 5001 _)⟩

lemma mapSet_length_of_mem {α : Type} {m : List (String × α)} {k : String} (v : α)
    (h : k ∈ m.map Prod.fst) : (mapSet m k v).length = m.length := by
  simp [mapSet, h]

lemma keyList_head? (n : Nat) (h : 0 < n) : (keyList n).head? = some (aKey 0) := by
  obtain ⟨j, rfl⟩ := Nat.exists_eq_succ_of_ne_zero (by omega : n ≠ 0)
  simp [keyList, List.range_succ_eq_map]

lemma aKey_not_mem_keyList (n : Nat) : aKey n ∉ keyList n := by
  intro h
  simp only [keyList, List.mem_map, List.mem_range] at h
  obtain ⟨i, hi, heq⟩ := h
  exact absurd (aKey_injective heq) (by omega)

/-- **C10.** In the bounded caches, re-`set`ting an existing key does not move
it to the newest position: the key order after the `set` is unchanged, and if
the re-set key was the oldest entry of a cache at capacity, the very next
fresh insertion evicts it. -/
theorem cache_reinsert_keeps_age
    (m : List (String × TokenCacheEntry)) (k knew : String) (v vnew : TokenCacheEntry)
    (hnd : (m.map Prod.fst).Nodup)
    (hfirst : (m.map Prod.fst).head? = some k)
    (hlen : m.length = MAX_CACHE_SIZE)
    (hfresh : knew ∉ m.map Prod.fst) :
    (mapSet m k v).map Prod.fst = m.map Prod.fst ∧
    mapGet (evictOldestCacheEntries (mapSet
        (evictOldestCacheEntries (mapSet m k v)) knew vnew)) k = none := by
  have hkmem : k ∈ m.map Prod.fst :=
    List.mem_of_mem_head? (Option.mem_def.mpr hfirst)
  have part1 : (mapSet m k v).map Prod.fst = m.map Prod.fst :=
    mapSet_map_fst_of_mem v hkmem
  set m1 := mapSet m k v with hm1
  have hm1len : m1.length = MAX_CACHE_SIZE := by
    rw [hm1, mapSet_length_of_mem v hkmem, hlen]
  have hev1 : evictOldestCacheEntries m1 = m1 := by
    rw [evictOldestCacheEntries, evictOldestEntries_eq_drop, hm1len]
    simp
  have hfresh1 : knew ∉ m1.map Prod.fst := by rw [part1]; exact hfresh
  have hm2 : mapSet m1 knew vnew = m1 ++ [(knew, vnew)] :=
    mapSet_of_not_mem vnew hfresh1
  have hev2 : evictOldestCacheEntries (m1 ++ [(knew, vnew)])
      = m1.drop 1 ++ [(knew, vnew)] := by
    rw [evictOldestCacheEntries, evictOldestEntries_eq_drop]
    have h1 : (m1 ++ [(knew, vnew)]).length - MAX_CACHE_SIZE = 1 := by
      rw [List.length_append, hm1len]
      simp only [List.length_singleton, MAX_CACHE_SIZE]
    rw [h1]
    exact List.drop_append_of_le_length (by rw [hm1len]; simp [MAX_CACHE_SIZE])
  have hkeys2 : (m1.drop 1 ++ [(knew, vnew)]).map Prod.fst
      = (m.map Prod.fst).drop 1 ++ [knew] := by
    rw [List.map_append, List.map_drop, part1]
    simp
  have hknotin : k ∉ (m.map Prod.fst).drop 1 := by
    cases hys : m.map Prod.fst with
    | nil => simp
    | cons y ys =>
        rw [hys] at hfirst
        simp only [List.head?_cons, Option.some.injEq] at hfirst
        rw [hys] at hnd
        rw [List.drop_one, List.tail_cons]
        rw [List.nodup_cons] at hnd
        rw [← hfirst]
        exact hnd.1
  have hkne : k ≠ knew := by
    intro hcontra
    rw [hcontra] at hkmem
    exact hfresh hkmem
  refine ⟨part1, ?_⟩
  rw [hev1, hm2, hev2]
  apply mapGet_eq_none_of_not_mem
  rw [hkeys2]
  intro hcontra
  rcases List.mem_append.mp hcontra with h1 | h1
  · exact hknotin h1
  · simp only [List.mem_singleton] at h1
    exact hkne h1

/-- Witness for `cache_reinsert_keeps_age`: a token cache holding 5000 distinct
keys, whose oldest key is refreshed and then evicted by one fresh insertion. -/
theorem cache_reinsert_keeps_age_witness :
    ((((keyList 5000).zip (List.replicate 5000 (⟨0, 0, 0⟩ : TokenCacheEntry))).map
        Prod.fst).Nodup ∧
     (((keyList 5000).zip (List.replicate 5000 (⟨0, 0, 0⟩ : TokenCacheEntry))).map
        Prod.fst).head? = some (aKey 0) ∧
     ((keyList 5000).zip (List.replicate 5000 (⟨0, 0, 0⟩ : TokenCacheEntry))).length
        = MAX_CACHE_SIZE ∧
     aKey 5000 ∉ ((keyList 5000).zip
        (List.replicate 5000 (⟨0, 0, 0⟩ : TokenCacheEntry))).map Prod.fst) ∧
    ((mapSet ((keyList 5000).zip (List.replicate 5000 (⟨0, 0, 0⟩ : TokenCacheEntry)))
        (aKey 0) ⟨1, 1, 1⟩).map Prod.fst
      = ((keyList 5000).zip (List.replicate 5000 (⟨0, 0, 0⟩ : TokenCacheEntry))).map
          Prod.fst ∧
     mapGet (evictOldestCacheEntries (mapSet
        (evictOldestCacheEntries (mapSet
          ((keyList 5000).zip (List.replicate 5000 (⟨0, 0, 0⟩ : TokenCacheEntry)))
          (aKey 0) ⟨1, 1, 1⟩)) (aKey 5000) ⟨2, 2, 2⟩)) (aKey 0) = none) := by
  have hkeys : ((keyList 5000).zip
      (List.replicate 5000 (⟨0, 0, 0⟩ : TokenCacheEntry))).map Prod.fst
      = keyList 5000 :=
    List.map_fst_zip _ _
      (by rw [keyList, List.length_map, List.length_range, List.length_replicate])
  have hnd : (((keyList 5000).zip
      (List.replicate 5000 (⟨0, 0, 0⟩ : TokenCacheEntry))).map Prod.fst).Nodup := by
    rw [hkeys]; exact keyList_nodup 5000
  have hfirst : (((keyList 5000).zip
      (List.replicate 5000 (⟨0, 0, 0⟩ : TokenCacheEntry))).map Prod.fst).head?
      = some (aKey 0) := by
    rw [hkeys]; exact keyList_head? 5000 (by omega)
  have hlen : ((keyList 5000).zip
      (List.replicate 5000 (⟨0, 0, 0⟩ : TokenCacheEntry))).length = MAX_CACHE_SIZE := by
    rw [List.length_zip, keyList, List.length_map, List.length_range,
      List.length_replicate]
    simp [MAX_CACHE_SIZE]
  have hfresh : aKey 5000 ∉ ((keyList 5000).zip
      (List.replicate 5000 (⟨0, 0, 0⟩ : TokenCacheEntry))).map Prod.fst := by
    rw [hkeys]; exact aKey_not_mem_keyList 5000
  exact ⟨⟨hnd, hfirst, hlen, hfresh⟩,
    cache_reinsert_keeps_age _ (aKey 0) (aKey 5000) ⟨1, 1, 1⟩ ⟨2, 2, 2⟩
      hnd hfirst hlen hfresh⟩

lemma limiterStep_inv {N : Nat} {s : LimiterState} (e : LimiterEvent)
    (h : LimiterInv N s) : LimiterInv N (limiterStep N s e) := by
  obtain ⟨run, qu, nid, st⟩ := s
  obtain ⟨h1, h2, h3, h4, h5, h6, h7⟩ := h
  simp only [LimiterInv] at h1 h2 h3 h4 h5 h6 h7 ⊢
  cases e with
  | submit =>
      simp only [limiterStep]
      by_cases hrun : run.length < N
      · have hq : qu = [] := by
          by_contra hq
          have := h2 hq
          omega
        simp only [if_pos hrun]
        refine ⟨?_, ?_, h3, ?_, ?_, ?_, ?_⟩
        · simp only [List.length_append, List.length_singleton]
          omega
        · intro hne
          exact absurd hq hne
        · intro q hqmem
          have := h4 q hqmem
          omega
        · intro t htmem
          rcases List.mem_append.mp htmem with ht | ht
          · have := h5 t ht
            omega
          · simp only [List.mem_singleton] at ht
            omega
        · rw [List.pairwise_append]
          exact ⟨h6, List.pairwise_singleton _ _,
            fun t ht b hb => by
              simp only [List.mem_singleton] at hb
              subst hb
              exact h5 t ht⟩
        · intro q hqmem
          rw [hq] at hqmem
          exact absurd hqmem (List.not_mem_nil q)
      · simp only [if_neg hrun]
        refine ⟨h1, ?_, ?_, ?_, ?_, h6, ?_⟩
        · intro _
          omega
        · rw [List.pairwise_append]
          exact ⟨h3, List.pairwise_singleton _ _,
            fun q hq b hb => by
              simp only [List.mem_singleton] at hb
              subst hb
              exact h4 q hq⟩
        · intro q hqmem
          rcases List.mem_append.mp hqmem with hq | hq
          · have := h4 q hq
            omega
          · simp only [List.mem_singleton] at hq
            omega
        · intro t htmem
          have := h5 t htmem
          omega
        · intro q hqmem t htmem
          rcases List.mem_append.mp hqmem with hq | hq
          · exact h7 q hq t htmem
          · simp only [List.mem_singleton] at hq
            subst hq
            exact h5 t htmem
  | finish id success =>
      simp only [limiterStep]
      by_cases hid : id ∈ run
      · simp only [if_pos hid]
        have hrlen : (run.erase id).length = run.length - 1 :=
          List.length_erase_of_mem hid
        have hpos : 1 ≤ run.length := List.length_pos.mpr (by
          intro hcontra
          rw [hcontra] at hid
          exact absurd hid (List.not_mem_nil id))
        cases qu with
        | nil =>
            dsimp only
            refine ⟨?_, ?_, h3, h4, h5, h6, h7⟩
            · omega
            · intro hne
              exact absurd rfl hne
        | cons q rest =>
            have hNlen : run.length = N := h2 (by simp)
            have hrlt : (run.erase id).length < N := by omega
            simp only [if_pos hrlt]
            have hqpair : (∀ b ∈ rest, q < b) ∧ rest.Pairwise (· < ·) :=
              List.pairwise_cons.mp h3
            have hqmem : q ∈ q :: rest := by simp
            refine ⟨?_, ?_, hqpair.2, ?_, ?_, ?_, ?_⟩
            · simp only [List.length_append, List.length_singleton]
              omega
            · intro hne
              simp only [List.length_append, List.length_singleton]
              omega
            · intro x hxmem
              exact h4 x (by simp [hxmem])
            · intro t htmem
              rcases List.mem_append.mp htmem with ht | ht
              · exact h5 t ht
              · simp only [List.mem_singleton] at ht
                rw [ht]
                exact h4 q hqmem
            · rw [List.pairwise_append]
              exact ⟨h6, List.pairwise_singleton _ _,
                fun t ht b hb => by
                  simp only [List.mem_singleton] at hb
                  rw [hb]
                  exact h7 q hqmem t ht⟩
            · intro x hxmem t htmem
              have hxq : x ∈ q :: rest := by simp [hxmem]
              rcases List.mem_append.mp htmem with ht | ht
              · exact h7 x hxq t ht
              · simp only [List.mem_singleton] at ht
                subst ht
                exact hqpair.1 x hxmem
      · simp only [if_neg hid]
        exact ⟨h1, h2, h3, h4, h5, h6, h7⟩

lemma foldl_limiter_inv (N : Nat) :
    ∀ (events : List LimiterEvent) (s : LimiterState),
      LimiterInv N s → LimiterInv N (events.foldl (limiterStep N) s)
  | [], _, h => h
  | e :: rest, _, h => foldl_limiter_inv N rest _ (limiterStep_inv e h)

lemma initLimiter_inv (N : Nat) : LimiterInv N initLimiter := by
  refine ⟨?_, ?_, ?_, ?_, ?_, ?_, ?_⟩ <;> simp [initLimiter]

lemma runLimiter_inv (N : Nat) (events : List LimiterEvent) :
    LimiterInv N (runLimiter N events) :=
  foldl_limiter_inv N events initLimiter (initLimiter_inv N)

/-- **C6.** For every event sequence against `createLimit(N)`: the number of
simultaneously running tasks never exceeds `N`; tasks start in submission
order (ids are assigned in submission order and the start log is strictly
increasing), so queued tasks are started FIFO; a `finish` step is identical
whether the task succeeded or failed (the slot is always released); and
whenever the queue is nonempty, finishing any running task — also a failing
one — starts the queue head, so a failing task never starves the queue. -/
theorem createLimit_concurrency_bound (N : Nat) (events : List LimiterEvent) :
    (runLimiter N events).runningIds.length ≤ N ∧
    (runLimiter N events).started.Pairwise (· < ·) ∧
    (∀ s id, limiterStep N s (.finish id true) = limiterStep N s (.finish id false)) ∧
    (∀ id success,
      (runLimiter N events).queue ≠ [] →
      id ∈ (runLimiter N events).runningIds →
      (limiterStep N (runLimiter N events) (.finish id success)).started
        = (runLimiter N events).started ++ (runLimiter N events).queue.take 1) := by
  obtain ⟨h1, h2, h3, h4, h5, h6, h7⟩ := runLimiter_inv N events
  refine ⟨h1, h6, fun s id => rfl, ?_⟩
  intro id success hqne hid
  set s := runLimiter N events with hs
  cases hq : s.queue with
  | nil => exact absurd hq hqne
  | cons q rest =>
      have hpos : 1 ≤ s.runningIds.length := List.length_pos.mpr (by
        intro hcontra
        rw [hcontra] at hid
        exact absurd hid (List.not_mem_nil id))
      have hNlen : s.runningIds.length = N := h2 hqne
      have hrlt : (s.runningIds.erase id).length < N := by
        have := List.length_erase_of_mem hid
        omega
      simp only [limiterStep, if_pos hid, hq, if_pos hrlt, List.take_succ_cons,
        List.take_zero]

/-- Witness for `createLimit_concurrency_bound`: concurrency 1, two
submissions; finishing the running task (with failure) starts the queued one. -/
theorem createLimit_concurrency_bound_witness :
    (runLimiter 1 [.submit, .submit]).queue ≠ [] ∧
    0 ∈ (runLimiter 1 [.submit, .submit]).runningIds ∧
    (limiterStep 1 (runLimiter 1 [.submit, .submit]) (.finish 0 false)).started
      = (runLimiter 1 [.submit, .submit]).started
        ++ (runLimiter 1 [.submit, .submit]).queue.take 1 :=
  ⟨by decide, by decide,
   (createLimit_concurrency_bound 1 [.submit, .submit]).2.2.2 0 false
     (by decide) (by decide)⟩

lemma resEmpty_of_ok_nil {st : TravState} :
    ∀ res, ((Except.ok [] : Except Unit (List (List String))), st).1 = .ok res →
      res = [] := by
  intro res h
  injection h with h1
  exact h1.symm

lemma resEmpty_of_error {e : Unit} {st : TravState} :
    ∀ res, ((Except.error e : Except Unit (List (List String))), st).1 = .ok res →
      res = [] := by
  intro res h
  simp at h

lemma pruneSound_of_empty {ignores : String → Bool} {segs : List String}
    {out : Except Unit (List (List String)) × TravState}
    (h : ∀ res, out.1 = .ok res → res = []) : PruneSound ignores segs out := by
  intro res hres p hp
  rw [h res hres] at hp
  exact absurd hp (List.not_mem_nil p)

lemma pruneSoundSelf_of_empty {ignores : String → Bool} {segs : List String}
    {out : Except Unit (List (List String)) × TravState}
    (h : ∀ res, out.1 = .ok res → res = []) : PruneSoundSelf ignores segs out := by
  intro res hres p hp
  rw [h res hres] at hp
  exact absurd hp (List.not_mem_nil p)

lemma countSound_of_unchanged {n : Nat} {st : TravState}
    {out : Except Unit (List (List String)) × TravState}
    (hc : out.2.count = st.count)
    (h : ∀ res, out.1 = .ok res → res = []) : CountSound n st out := by
  refine ⟨by omega, by omega, ?_⟩
  intro res hres
  rw [h res hres]
  simp [hc]

lemma self_ne_append_of_ne_nil {α : Type} {l a b : List α} (ha : a ≠ []) :
    l ≠ l ++ a ++ b := by
  intro h
  have hlen := congrArg List.length h
  simp only [List.length_append] at hlen
  have := List.length_pos.mpr ha
  omega

/-- Combining the pruning facts of one child call (at `segs ++ [name]`) with
those of the remaining siblings (at `segs`) yields the pruning facts of the
concatenated result at `segs`. -/
lemma pruneSound_append_step
    {ignores : String → Bool} {segs : List String} {name : String}
    {nested restOut : List (List String)}
    (hns : ∀ p ∈ nested,
      (∃ suf, p = (segs ++ [name]) ++ suf) ∧
      (∀ q a b, q = (segs ++ [name]) ++ a → a ≠ [] → p = q ++ b → b ≠ [] →
        joinRel q ≠ "" → ignores (joinRel q ++ "/") = false))
    (hself : ∀ p ∈ nested, p ≠ segs ++ [name] → joinRel (segs ++ [name]) ≠ "" →
      ignores (joinRel (segs ++ [name]) ++ "/") = false)
    (hrs : ∀ p ∈ restOut,
      (∃ suf, p = segs ++ suf) ∧
      (∀ q a b, q = segs ++ a → a ≠ [] → p = q ++ b → b ≠ [] →
        joinRel q ≠ "" → ignores (joinRel q ++ "/") = false)) :
    ∀ p ∈ nested ++ restOut,
      (∃ suf, p = segs ++ suf) ∧
      (∀ q a b, q = segs ++ a → a ≠ [] → p = q ++ b → b ≠ [] →
        joinRel q ≠ "" → ignores (joinRel q ++ "/") = false) := by
  intro p hp
  rcases List.mem_append.mp hp with hmem | hmem
  · obtain ⟨⟨suf, hsuf⟩, hdeep⟩ := hns p hmem
    constructor
    · exact ⟨name :: suf, by rw [hsuf]; simp⟩
    · intro q a b hq ha hpb hb hrel
      subst hq
      have hcat : a ++ b = name :: suf := by
        have h1 : segs ++ (a ++ b) = segs ++ (name :: suf) := by
          rw [← List.append_assoc, ← hpb, hsuf]
          simp
        exact List.append_cancel_left h1
      cases a with
      | nil => exact absurd rfl ha
      | cons a0 atail =>
          simp only [List.cons_append] at hcat
          have ha0 : a0 = name := by
            injection hcat
          have htail : atail ++ b = suf := by
            injection hcat
          subst ha0
          cases atail with
          | nil =>
              have hpne : p ≠ segs ++ [a0] := by
                rw [hpb]
                intro hcontra
                have hlen := congrArg List.length hcontra.symm
                simp only [List.length_append, List.length_cons,
                  List.length_nil, List.length_singleton] at hlen
                have := List.length_pos.mpr hb
                omega
              have hgoal := hself p hmem hpne
              simp only [List.singleton_append] at *
              exact hgoal hrel
          | cons t0 ttail =>
              have hq' : segs ++ a0 :: t0 :: ttail = (segs ++ [a0]) ++ (t0 :: ttail) := by
                simp
              rw [hq']
              rw [hq'] at hpb hrel
              exact hdeep _ (t0 :: ttail) b rfl (by simp) hpb hb hrel
  · exact hrs p hmem

/-- Joint soundness of `collectFiles`/`collectChildren`: pruning soundness and
counter soundness, proved by the functional induction of the mutual
definition. -/
lemma collect_sound :
    (∀ (node : FsNode) (segs : List String) (ignores : String → Bool) (signal : Bool)
        (maxFiles : Option Nat) (st : TravState),
        PruneSound ignores segs (collectFiles node segs ignores signal maxFiles st) ∧
        PruneSoundSelf ignores segs (collectFiles node segs ignores signal maxFiles st) ∧
        (∀ n, maxFiles = some n →
          CountSound n st (collectFiles node segs ignores signal maxFiles st))) ∧
    (∀ (children : List (String × FsNode)) (segs : List String) (ignores : String → Bool)
        (signal : Bool) (maxFiles : Option Nat) (st : TravState),
        PruneSound ignores segs (collectChildren children segs ignores signal maxFiles st) ∧
        (∀ n, maxFiles = some n →
          CountSound n st (collectChildren children segs ignores signal maxFiles st))) := by
  apply collectFiles.mutual_induct
  -- signal already aborted
  next =>
    intro t segs ign mf st
    have hred : collectFiles t segs ign true mf st = (.ok [], st) := by
      simp [collectFiles]
    rw [hred]
    exact ⟨pruneSound_of_empty resEmpty_of_ok_nil,
           pruneSoundSelf_of_empty resEmpty_of_ok_nil,
           fun n _ => countSound_of_unchanged rfl resEmpty_of_ok_nil⟩
  -- file whose stat throws: the error propagates
  next =>
    intro segs ign sig mf st hsig
    have hred : collectFiles (.file true) segs ign sig mf st
        = (.error (), { st with ops := st.ops ++ [.statOp segs] }) := by
      simp [collectFiles, hsig]
    rw [hred]
    exact ⟨pruneSound_of_empty resEmpty_of_error,
           pruneSoundSelf_of_empty resEmpty_of_error,
           fun n _ => countSound_of_unchanged rfl resEmpty_of_error⟩
  -- file matching the ignore matcher
  next =>
    intro segs ign sig mf st hsig rel statFails hstat hig
    have hig' : joinRel segs ≠ "" ∧ ign (joinRel segs) = true := hig
    have hred : collectFiles (.file statFails) segs ign sig mf st
        = (.ok [], { st with ops := st.ops ++ [.statOp segs] }) := by
      simp [collectFiles, hsig, hstat, hig'.1, hig'.2]
    rw [hred]
    exact ⟨pruneSound_of_empty resEmpty_of_ok_nil,
           pruneSoundSelf_of_empty resEmpty_of_ok_nil,
           fun n _ => countSound_of_unchanged rfl resEmpty_of_ok_nil⟩
  -- file reached with the cap already met
  next =>
    intro segs ign sig st hsig rel statFails st1 hstat hig n hcap
    have hig' : ¬(joinRel segs ≠ "" ∧ ign (joinRel segs) = true) := hig
    have hcap' : st.count ≥ n := hcap
    have hred : collectFiles (.file statFails) segs ign sig (some n) st
        = (.ok [], { st with ops := st.ops ++ [.statOp segs] }) := by
      simp [collectFiles, hsig, hstat, hig', hcap']
    rw [hred]
    exact ⟨pruneSound_of_empty resEmpty_of_ok_nil,
           pruneSoundSelf_of_empty resEmpty_of_ok_nil,
           fun m _ => countSound_of_unchanged rfl resEmpty_of_ok_nil⟩
  -- file collected: the counter advances by one
  next =>
    intro segs ign sig st hsig rel statFails st1 hstat hig n hncap
    have hig' : ¬(joinRel segs ≠ "" ∧ ign (joinRel segs) = true) := hig
    have hncap' : ¬st.count ≥ n := hncap
    have hred : collectFiles (.file statFails) segs ign sig (some n) st
        = (.ok [segs],
           { count := st.count + 1, warns := st.warns,
             ops := st.ops ++ [.statOp segs] }) := by
      simp [collectFiles, hsig, hstat, hig', hncap']
    rw [hred]
    refine ⟨?_, ?_, ?_⟩
    · intro res hres p hp
      injection hres with h1
      rw [← h1] at hp
      simp only [List.mem_singleton] at hp
      subst hp
      refine ⟨⟨[], by simp⟩, ?_⟩
      intro q a b hq ha hpb hb _
      rw [hq] at hpb
      rw [List.append_assoc] at hpb
      exact absurd hpb (by
        rw [← List.append_assoc]
        exact self_ne_append_of_ne_nil ha)
    · intro res hres p hp hpne _
      injection hres with h1
      rw [← h1] at hp
      simp only [List.mem_singleton] at hp
      exact absurd hp hpne
    · intro m hm
      injection hm with hm'
      subst hm'
      refine ⟨by simp, ?_, ?_⟩
      · intro h
        simp only
        omega
      · intro res hres
        injection hres with h1
        rw [← h1]
        simp
  -- file with no cap configured
  next =>
    intro segs ign sig st hsig rel statFails hstat hig
    have hig' : ¬(joinRel segs ≠ "" ∧ ign (joinRel segs) = true) := hig
    have hred : collectFiles (.file statFails) segs ign sig none st
        = (.ok [segs], { st with ops := st.ops ++ [.statOp segs] }) := by
      simp [collectFiles, hsig, hstat, hig']
    rw [hred]
    refine ⟨?_, ?_, ?_⟩
    · intro res hres p hp
      injection hres with h1
      rw [← h1] at hp
      simp only [List.mem_singleton] at hp
      subst hp
      refine ⟨⟨[], by simp⟩, ?_⟩
      intro q a b hq ha hpb hb _
      rw [hq] at hpb
      rw [List.append_assoc] at hpb
      exact absurd hpb (by
        rw [← List.append_assoc]
        exact self_ne_append_of_ne_nil ha)
    · intro res hres p hp hpne _
      injection hres with h1
      rw [← h1] at hp
      simp only [List.mem_singleton] at hp
      exact absurd hp hpne
    · intro m hm
      simp at hm
  -- directory whose stat throws: the error propagates
  next =>
    intro segs ign sig mf st hsig children listFails
    have hred : collectFiles (.dir children true listFails) segs ign sig mf st
        = (.error (), { st with ops := st.ops ++ [.statOp segs] }) := by
      simp [collectFiles, hsig]
    rw [hred]
    exact ⟨pruneSound_of_empty resEmpty_of_error,
           pruneSoundSelf_of_empty resEmpty_of_error,
           fun n _ => countSound_of_unchanged rfl resEmpty_of_error⟩
  -- directory matching the ignore matcher: pruned without listing
  next =>
    intro segs ign sig mf st hsig rel children statFails listFails hstat hig
    have hig' : joinRel segs ≠ "" ∧ ign (joinRel segs ++ "/") = true := hig
    have hred : collectFiles (.dir children statFails listFails) segs ign sig mf st
        = (.ok [], { st with ops := st.ops ++ [.statOp segs] }) := by
      simp [collectFiles, hsig, hstat, hig'.1, hig'.2]
    rw [hred]
    exact ⟨pruneSound_of_empty resEmpty_of_ok_nil,
           pruneSoundSelf_of_empty resEmpty_of_ok_nil,
           fun n _ => countSound_of_unchanged rfl resEmpty_of_ok_nil⟩
  -- impossible split: the second cancellation check with an unsignalled token
  next =>
    intro segs ign mf st rel children statFails listFails hstat hig habs
    exact absurd rfl habs
  -- directory whose readDirectory throws: the error propagates
  next =>
    intro segs ign sig mf st hsig rel children statFails hstat hig hsig2
    have hig' : ¬(joinRel segs ≠ "" ∧ ign (joinRel segs ++ "/") = true) := hig
    have hred : collectFiles (.dir children statFails true) segs ign sig mf st
        = (.error (),
           { count := st.count, warns := st.warns,
             ops := (st.ops ++ [.statOp segs]) ++ [.listOp segs] }) := by
      simp [collectFiles, hsig, hstat, hig']
    rw [hred]
    exact ⟨pruneSound_of_empty resEmpty_of_error,
           pruneSoundSelf_of_empty resEmpty_of_error,
           fun n _ => countSound_of_unchanged rfl resEmpty_of_error⟩
  -- directory descending into its children
  next =>
    intro segs ign sig mf st hsig rel children statFails listFails st1 hstat hig hsig2
      st2 hlist ih
    have hig' : ¬(joinRel segs ≠ "" ∧ ign (joinRel segs ++ "/") = true) := hig
    have hred : collectFiles (.dir children statFails listFails) segs ign sig mf st
        = collectChildren children segs ign sig mf
            { count := st.count, warns := st.warns,
              ops := (st.ops ++ [.statOp segs]) ++ [.listOp segs] } := by
      simp [collectFiles, hsig, hstat, hig', hlist]
    rw [hred]
    refine ⟨ih.1, ?_, ?_⟩
    · intro res hres p hp hpne hrel
      cases hbv : ign (joinRel segs ++ "/") with
      | false => rfl
      | true => exact absurd ⟨hrel, hbv⟩ hig'
    · intro n hmf
      exact ih.2 n hmf
  -- empty child list
  next =>
    intro segs ign sig mf st
    have hred : collectChildren [] segs ign sig mf st = (.ok [], st) := by
      simp [collectChildren]
    rw [hred]
    exact ⟨pruneSound_of_empty resEmpty_of_ok_nil,
           fun n _ => countSound_of_unchanged rfl resEmpty_of_ok_nil⟩
  -- cancellation observed before a child
  next =>
    intro segs ign mf st name child rest
    have hred : collectChildren ((name, child) :: rest) segs ign true mf st
        = (.ok [], st) := by
      simp [collectChildren]
    rw [hred]
    exact ⟨pruneSound_of_empty resEmpty_of_ok_nil,
           fun n _ => countSound_of_unchanged rfl resEmpty_of_ok_nil⟩
  -- cap observed before a child: soft stop, possible diagnostic
  next =>
    intro segs ign sig st name child rest hsig n hcap
    have hred : collectChildren ((name, child) :: rest) segs ign sig (some n) st
        = (.ok [], if st.count = n then { st with warns := st.warns + 1 } else st) := by
      simp [collectChildren, hsig, hcap]
    rw [hred]
    have hc : (if st.count = n then { st with warns := st.warns + 1 } else st).count
        = st.count := by
      split <;> rfl
    refine ⟨pruneSound_of_empty resEmpty_of_ok_nil, ?_⟩
    intro m hm
    injection hm with hm'
    subst hm'
    exact countSound_of_unchanged hc resEmpty_of_ok_nil
  -- child call fails (cap configured): the error propagates
  next =>
    intro segs ign sig st name child rest hsig n hncap e st2 hchild ih1
    have hsigf : sig = false := by simpa using hsig
    subst hsigf
    have hncap' : ¬st.count ≥ n := hncap
    have hred : collectChildren ((name, child) :: rest) segs ign false (some n) st
        = (.error e, st2) := by
      simp [collectChildren, hncap', hchild]
    rw [hred]
    refine ⟨pruneSound_of_empty resEmpty_of_error, ?_⟩
    intro m hm
    injection hm with hm'
    subst hm'
    obtain ⟨h11, h12, _⟩ := ih1.2.2 n rfl
    rw [hchild] at h11 h12
    exact ⟨h11, h12, fun res hres => by simp at hres⟩
  -- child succeeds, later sibling fails (cap configured)
  next =>
    intro segs ign sig st name child rest hsig n hncap restOut st2 e st2_1
      hchild hrest ih1 ih2
    have hsigf : sig = false := by simpa using hsig
    subst hsigf
    have hncap' : ¬st.count ≥ n := hncap
    have hred : collectChildren ((name, child) :: rest) segs ign false (some n) st
        = (.error e, st2_1) := by
      simp [collectChildren, hncap', hchild, hrest]
    rw [hred]
    refine ⟨pruneSound_of_empty resEmpty_of_error, ?_⟩
    intro m hm
    injection hm with hm'
    subst hm'
    obtain ⟨h11, h12, _⟩ := ih1.2.2 n rfl
    obtain ⟨h21, h22, _⟩ := ih2.2 n rfl
    rw [hchild] at h11 h12
    rw [hrest] at h21 h22
    exact ⟨le_trans h11 h21, fun h => h22 (h12 h),
           fun res hres => by simp at hres⟩
  -- child and siblings succeed (cap configured): results are concatenated
  next =>
    intro segs ign sig st name child rest hsig n hncap restOut st2 restOut_1 st2_1
      hchild hrest ih1 ih2
    have hsigf : sig = false := by simpa using hsig
    subst hsigf
    have hncap' : ¬st.count ≥ n := hncap
    have hred : collectChildren ((name, child) :: rest) segs ign false (some n) st
        = (.ok (restOut ++ restOut_1), st2_1) := by
      simp [collectChildren, hncap', hchild, hrest]
    rw [hred]
    constructor
    · intro res hres p hp
      injection hres with h1
      rw [← h1] at hp
      refine @pruneSound_append_step ign segs name restOut restOut_1 ?_ ?_ ?_ p hp
      · intro x hx
        exact ih1.1 restOut (by rw [hchild]) x hx
      · intro x hx
        exact ih1.2.1 restOut (by rw [hchild]) x hx
      · intro x hx
        exact ih2.1 restOut_1 (by rw [hrest]) x hx
    · intro m hm
      injection hm with hm'
      subst hm'
      obtain ⟨h11, h12, h13⟩ := ih1.2.2 n rfl
      obtain ⟨h21, h22, h23⟩ := ih2.2 n rfl
      rw [hchild] at h11 h12 h13
      rw [hrest] at h21 h22 h23
      have he1 : st2.count = st.count + restOut.length := h13 restOut rfl
      have he2 : st2_1.count = st2.count + restOut_1.length := h23 restOut_1 rfl
      refine ⟨le_trans h11 h21, fun h => h22 (h12 h), ?_⟩
      intro res hres
      injection hres with h1
      rw [← h1]
      simp only [List.length_append]
      omega
  -- child call fails (no cap): the error propagates
  next =>
    intro segs ign sig st name child rest hsig e st2 hchild ih1
    have hsigf : sig = false := by simpa using hsig
    subst hsigf
    have hred : collectChildren ((name, child) :: rest) segs ign false none st
        = (.error e, st2) := by
      simp [collectChildren, hchild]
    rw [hred]
    refine ⟨pruneSound_of_empty resEmpty_of_error, ?_⟩
    intro m hm
    simp at hm
  -- child succeeds, later sibling fails (no cap)
  next =>
    intro segs ign sig st name child rest hsig restOut st2 e st2_1 hchild hrest ih1 ih2
    have hsigf : sig = false := by simpa using hsig
    subst hsigf
    have hred : collectChildren ((name, child) :: rest) segs ign false none st
        = (.error e, st2_1) := by
      simp [collectChildren, hchild, hrest]
    rw [hred]
    refine ⟨pruneSound_of_empty resEmpty_of_error, ?_⟩
    intro m hm
    simp at hm
  -- child and siblings succeed (no cap)
  next =>
    intro segs ign sig st name child rest hsig restOut st2 restOut_1 st2_1
      hchild hrest ih1 ih2
    have hsigf : sig = false := by simpa using hsig
    subst hsigf
    have hred : collectChildren ((name, child) :: rest) segs ign false none st
        = (.ok (restOut ++ restOut_1), st2_1) := by
      simp [collectChildren, hchild, hrest]
    rw [hred]
    constructor
    · intro res hres p hp
      injection hres with h1
      rw [← h1] at hp
      refine @pruneSound_append_step ign segs name restOut restOut_1 ?_ ?_ ?_ p hp
      · intro x hx
        exact ih1.1 restOut (by rw [hchild]) x hx
      · intro x hx
        exact ih1.2.1 restOut (by rw [hchild]) x hx
      · intro x hx
        exact ih2.1 restOut_1 (by rw [hrest]) x hx
    · intro m hm
      simp at hm

/-- **C2.** For every directory shape, matcher, cancellation flag and cap `N`,
a single `collectFiles` traversal call whose shared counter starts within the
cap leaves the counter at most `N` — it is never incremented past the cap —
and returns at most `N` minus the starting count paths. -/
theorem collectFiles_cap_bound (node : FsNode) (segs : List String)
    (ignores : String → Bool) (signal : Bool) (n : Nat) (st : TravState)
    (hstart : st.count ≤ n) :
    (collectFiles node segs ignores signal (some n) st).2.count ≤ n ∧
    (∀ res, (collectFiles node segs ignores signal (some n) st).1 = .ok res →
      st.count + res.length ≤ n) := by
  obtain ⟨h1, h2, h3⟩ :=
    (collect_sound.1 node segs ignores signal (some n) st).2.2 n rfl
  refine ⟨h2 hstart, ?_⟩
  intro res hres
  have h4 := h3 res hres
  have h5 := h2 hstart
  omega

/-- Witness for `collectFiles_cap_bound`: a concrete tree traversed with
cap 1 from a fresh counter. -/
theorem collectFiles_cap_bound_witness :
    ((⟨0, 0, []⟩ : TravState).count ≤ 1) ∧
    ((collectFiles capDemoTree [] (fun _ => false) false (some 1) ⟨0, 0, []⟩).2.count ≤ 1 ∧
     (∀ res,
        (collectFiles capDemoTree [] (fun _ => false) false (some 1) ⟨0, 0, []⟩).1
          = .ok res →
        (⟨0, 0, []⟩ : TravState).count + res.length ≤ 1)) :=
  ⟨by decide,
   collectFiles_cap_bound capDemoTree [] (fun _ => false) false 1 ⟨0, 0, []⟩ (by decide)⟩

lemma capDemo_eval :
    collectFiles capDemoTree [] (fun _ => false) false (some 1) ⟨0, 0, []⟩
      = (.ok [["d1", "f1"]],
         ⟨1, 2, [.statOp [], .listOp [], .statOp ["d1"], .listOp ["d1"],
                 .statOp ["d1", "f1"]]⟩) := by
  simp [capDemoTree, collectFiles, collectChildren, joinRel]

/-- **C9.** At the failing input `capDemoTree` with cap 1, the traversal
soft-stops as specified — it returns the already-collected path, raises no
error, and never counts past the cap — but the cap diagnostic is emitted
twice in this one traversal call (once per directory loop that observes the
reached cap: inside `d1` and again at the root before `d2`), not exactly
once, contradicting the source comment "log once per traversal". -/
theorem collectFiles_cap_warns_twice :
    collectFiles capDemoTree [] (fun _ => false) false (some 1) ⟨0, 0, []⟩
      = (.ok [["d1", "f1"]],
         ⟨1, 2, [.statOp [], .listOp [], .statOp ["d1"], .listOp ["d1"],
                 .statOp ["d1", "f1"]]⟩) :=
  capDemo_eval

/-- **C3.** (i) A non-root directory whose root-relative slash path with a
trailing slash matches the matcher returns empty immediately, the only
filesystem operation of the call being the stat of the directory itself —
nothing beneath it is statted or listed. (ii) In any traversal from the
root, every directory level strictly above a returned path (other than the
root) tested unignored, so no path below an ignored directory is ever
returned. (iii) The spec example: with pattern `dist/` and files
`dist/a.txt`, `dist/sub/b.txt`, `other.txt`, only `other.txt` is returned
and nothing under `dist` is statted or listed. -/
theorem collectFiles_prunes_ignored_dirs :
    (∀ (children : List (String × FsNode)) (listFails : Bool) (segs : List String)
        (ignores : String → Bool) (maxFiles : Option Nat) (st : TravState),
        joinRel segs ≠ "" → ignores (joinRel segs ++ "/") = true →
        collectFiles (.dir children false listFails) segs ignores false maxFiles st
          = (.ok [], { st with ops := st.ops ++ [.statOp segs] })) ∧
    (∀ (node : FsNode) (ignores : String → Bool) (signal : Bool)
        (maxFiles : Option Nat) (st : TravState) (res : List (List String)),
        (collectFiles node [] ignores signal maxFiles st).1 = .ok res →
        ∀ p ∈ res, ∀ q b, q ≠ ([] : List String) → b ≠ ([] : List String) →
          p = q ++ b → joinRel q ≠ "" → ignores (joinRel q ++ "/") = false) ∧
    (collectFiles distDemoTree [] (fun s => s == "dist/") false none ⟨0, 0, []⟩
      = (.ok [["other.txt"]],
         ⟨0, 0, [.statOp [], .listOp [], .statOp ["dist"],
                 .statOp ["other.txt"]]⟩)) := by
  refine ⟨?_, ?_, ?_⟩
  · intro children listFails segs ignores maxFiles st h1 h2
    simp [collectFiles, h1, h2]
  · intro node ignores signal maxFiles st res hres p hp q b hq hb hpb hrel
    have hps := (collect_sound.1 node [] ignores signal maxFiles st).1 res hres p hp
    exact hps.2 q q b (by simp) hq hpb hb hrel
  · simp +decide [distDemoTree, collectFiles, collectChildren, joinRel]

/-- Witness for `collectFiles_prunes_ignored_dirs` at concrete inputs: part
(i) on an ignored `dist` directory with a child, part (ii) on the
`capDemoTree` traversal and its returned path `d1/f1`. -/
theorem collectFiles_prunes_ignored_dirs_witness :
    (joinRel ["dist"] ≠ "" ∧
     (fun s => s == "dist/") (joinRel ["dist"] ++ "/") = true ∧
     collectFiles (.dir [("x", .file false)] false false) ["dist"]
        (fun s => s == "dist/") false none ⟨0, 0, []⟩
       = (.ok [], { count := 0, warns := 0, ops := [] ++ [FsOp.statOp ["dist"]] })) ∧
    ((fun _ : String => false) (joinRel ["d1"] ++ "/") = false) := by
  refine ⟨⟨?h1, ?h2, ?_⟩, ?_⟩
  case h1 => decide
  case h2 => decide
  · exact collectFiles_prunes_ignored_dirs.1 [("x", .file false)] false ["dist"]
      (fun s => s == "dist/") none ⟨0, 0, []⟩ (by decide) (by decide)
  · exact collectFiles_prunes_ignored_dirs.2.1 capDemoTree (fun _ => false) false
      (some 1) ⟨0, 0, []⟩ [["d1", "f1"]] (by rw [capDemo_eval])
      ["d1", "f1"] (by decide) ["d1"] ["f1"] (by decide) (by decide) (by decide)
      (by decide)

/-- Counterexample to **C1** as stated: a `collectFiles` call on a target
whose stat throws propagates the exception to the caller instead of
returning a degraded value. -/
theorem collectFiles_error_escapes :
    (collectFiles (.file true) [] (fun _ => false) false none ⟨0, 0, []⟩).1
      = .error () := by
  simp [collectFiles]

/-- **C1 (amended).** `isBinary` and `countTokens` catch every filesystem
failure and return the degraded value: a failed read with no usable cache
entry classifies as binary, a failed stat contributes zero tokens, and a
batch over entirely failing stats totals zero with untouched caches.
`collectFiles`, by contrast, propagates `stat` and `readDirectory` failures
to its caller. -/
theorem classifiers_degrade_collectFiles_propagates :
    (∀ (fs : FileSys) (p : String) (bc : List (String × BinaryCacheEntry)),
       mapGet bc p = none → fs.readFile p = .error () →
       (isBinary fs p bc).1 = true) ∧
    (∀ (fs : FileSys) (tokenize : List Nat → Nat) (maxPreview : Nat) (p : String)
       (tc : List (String × TokenCacheEntry)) (bc : List (String × BinaryCacheEntry)),
       fs.stat p = .error () →
       countTokensOne fs tokenize maxPreview false p tc bc = (0, tc, bc)) ∧
    (∀ (fs : FileSys) (tokenize : List Nat → Nat) (maxPreview : Nat)
       (paths : List String) (tc : List (String × TokenCacheEntry))
       (bc : List (String × BinaryCacheEntry)),
       (∀ p, fs.stat p = .error ()) →
       countTokens fs tokenize maxPreview false paths tc bc = (0, tc, bc)) ∧
    (∀ (segs : List String) (ignores : String → Bool) (maxFiles : Option Nat)
       (st : TravState),
       (collectFiles (.file true) segs ignores false maxFiles st).1 = .error ()) ∧
    (∀ (children : List (String × FsNode)) (segs : List String)
       (ignores : String → Bool) (maxFiles : Option Nat) (st : TravState),
       ignores (joinRel segs ++ "/") = false →
       (collectFiles (.dir children false true) segs ignores false maxFiles st).1
         = .error ()) := by
  refine ⟨?_, ?_, ?_, ?_, ?_⟩
  · intro fs p bc hget hread
    cases hstat : fs.stat p with
    | ok stats => simp [isBinary, isBinaryRead, hstat, hget, hread]
    | error e => simp [isBinary, isBinaryRead, hstat, hread]
  · intro fs tokenize maxPreview p tc bc hstat
    simp [countTokensOne, hstat]
  · intro fs tokenize maxPreview paths tc bc hfail
    simp only [countTokens, Bool.false_eq_true, if_false]
    have haux : ∀ (ps : List String) (s : Nat),
        ps.foldl (fun acc p =>
          let r := countTokensOne fs tokenize maxPreview false p acc.2.1 acc.2.2
          (acc.1 + r.1, r.2.1, r.2.2)) (s, tc, bc) = (s, tc, bc) := by
      intro ps
      induction ps with
      | nil => intro s; rfl
      | cons p rest ih =>
          intro s
          simp only [List.foldl_cons]
          have hone : countTokensOne fs tokenize maxPreview false p tc bc
              = (0, tc, bc) := by
            simp [countTokensOne, hfail p]
          simp only [hone]
          exact ih s
    exact haux paths 0
  · intro segs ignores maxFiles st
    simp [collectFiles]
  · intro children segs ignores maxFiles st hig
    simp [collectFiles, hig]

/-- Witness for `classifiers_degrade_collectFiles_propagates` on the
always-failing filesystem and concrete inputs. -/
theorem classifiers_degrade_witness :
    (mapGet ([] : List (String × BinaryCacheEntry)) "p" = none ∧
     failFs.readFile "p" = .error () ∧
     (isBinary failFs "p" []).1 = true) ∧
    (failFs.stat "p" = .error () ∧
     countTokensOne failFs (fun _ => 0) 100 false "p" [] [] = (0, [], [])) ∧
    ((∀ q, failFs.stat q = .error ()) ∧
     countTokens failFs (fun _ => 0) 100 false ["p", "q"] [] [] = (0, [], [])) ∧
    (collectFiles (.file true) ["a"] (fun _ => false) false none ⟨0, 0, []⟩).1
      = .error () ∧
    ((fun _ : String => false) (joinRel ["a"] ++ "/") = false ∧
     (collectFiles (.dir [] false true) ["a"] (fun _ => false) false none
        ⟨0, 0, []⟩).1 = .error ()) :=
  ⟨⟨rfl, rfl,
    classifiers_degrade_collectFiles_propagates.1 failFs "p" [] rfl rfl⟩,
   ⟨rfl,
    classifiers_degrade_collectFiles_propagates.2.1 failFs (fun _ => 0) 100 "p" [] [] rfl⟩,
   ⟨fun _ => rfl,
    classifiers_degrade_collectFiles_propagates.2.2.1 failFs (fun _ => 0) 100
      ["p", "q"] [] [] (fun _ => rfl)⟩,
   classifiers_degrade_collectFiles_propagates.2.2.2.1 ["a"] (fun _ => false) none
     ⟨0, 0, []⟩,
   ⟨rfl,
    classifiers_degrade_collectFiles_propagates.2.2.2.2 [] ["a"] (fun _ => false)
      none ⟨0, 0, []⟩ rfl⟩⟩

lemma mem_mapSet {α : Type} {m : List (String × α)} {k : String} {v : α}
    {kv : String × α} (h : kv ∈ mapSet m k v) : kv ∈ m ∨ kv = (k, v) := by
  unfold mapSet at h
  split at h
  · obtain ⟨x, hx, heq⟩ := List.mem_map.mp h
    by_cases hk : x.1 = k
    · rw [if_pos hk] at heq
      exact Or.inr heq.symm
    · rw [if_neg hk] at heq
      exact Or.inl (heq ▸ hx)
  · rcases List.mem_append.mp h with h1 | h1
    · exact Or.inl h1
    · simp only [List.mem_singleton] at h1
      exact Or.inr h1

lemma mem_evictOldestEntries {α : Type} {maxSize : Nat} {m : List (String × α)}
    {kv : String × α} (h : kv ∈ evictOldestEntries maxSize m) : kv ∈ m := by
  unfold evictOldestEntries at h
  split at h
  · exact List.mem_of_mem_drop h
  · exact h

lemma mapGet_mem {α : Type} {m : List (String × α)} {k : String} {v : α}
    (h : mapGet m k = some v) : (k, v) ∈ m := by
  unfold mapGet at h
  cases hfind : m.find? (fun kv => kv.1 = k) with
  | none => rw [hfind] at h; simp at h
  | some kv =>
      rw [hfind] at h
      simp at h
      have hmem := List.mem_of_find?_eq_some hfind
      have hprop := List.find?_some hfind
      simp only [decide_eq_true_eq] at hprop
      have : kv = (k, v) := by
        cases kv with
        | mk a b =>
            simp only at hprop h
            rw [hprop, h]
      exact this ▸ hmem

lemma countTokensRead_preserves_bounded (fs : FileSys) (tokenize : List Nat → Nat)
    (sig : Bool) (p : String) (stats : FileStat)
    (tc : List (String × TokenCacheEntry)) (bc : List (String × BinaryCacheEntry))
    (mp : Nat) (h : TokenCacheBounded mp tc) (hsize : stats.size ≤ mp) :
    TokenCacheBounded mp (countTokensRead fs tokenize sig p stats tc bc).2.1 := by
  unfold countTokensRead
  repeat' split
  all_goals
    first
    | exact h
    | (dsimp only
       intro kv hkv
       rcases mem_mapSet (mem_evictOldestEntries hkv) with h1 | h1
       · exact h kv h1
       · rw [h1]
         exact hsize)

/-- The token-cache size invariant is preserved by every worker run. -/
lemma countTokensOne_preserves_bounded (fs : FileSys) (tokenize : List Nat → Nat)
    (mp : Nat) (sig : Bool) (p : String)
    (tc : List (String × TokenCacheEntry)) (bc : List (String × BinaryCacheEntry))
    (h : TokenCacheBounded mp tc) :
    TokenCacheBounded mp (countTokensOne fs tokenize mp sig p tc bc).2.1 := by
  unfold countTokensOne
  repeat' split
  all_goals
    first
    | exact h
    | exact countTokensRead_preserves_bounded _ _ _ _ _ _ _ _ h (by omega)

/-- **C7 (amended).** The per-file worker of `countTokens`: (i) on an exact
`(mtime, size)` cache match the cached token count is returned and neither
cache changes — and since `fs` is arbitrary here, including one whose reads
fail, the file content is not re-read; (ii) on a mismatch with the current
size within the preview ceiling and content not classified binary, the
content is re-read, re-tokenized, and the cache entry replaced keyed by the
current `(mtime, size)`; but (iii) a mismatched file whose current size
exceeds the ceiling contributes 0 without reading and leaves the token cache
unchanged, and (iv) a mismatched file now classified binary contributes 0
and leaves the token cache unchanged. -/
theorem countTokens_cache_correct :
    (∀ (fs : FileSys) (tokenize : List Nat → Nat) (mp : Nat) (p : String)
       (tc : List (String × TokenCacheEntry)) (bc : List (String × BinaryCacheEntry))
       (stats : FileStat) (e : TokenCacheEntry),
       fs.stat p = .ok stats → TokenCacheBounded mp tc →
       mapGet tc p = some e → e.mtime = stats.mtime → e.size = stats.size →
       countTokensOne fs tokenize mp false p tc bc = (e.tokens, tc, bc)) ∧
    (∀ (fs : FileSys) (tokenize : List Nat → Nat) (mp : Nat) (p : String)
       (tc : List (String × TokenCacheEntry)) (bc bc1 : List (String × BinaryCacheEntry))
       (stats : FileStat) (e : TokenCacheEntry) (bytes : List Nat),
       fs.stat p = .ok stats → stats.size ≤ mp →
       mapGet tc p = some e → ¬(e.mtime = stats.mtime ∧ e.size = stats.size) →
       isBinary fs p bc = (false, bc1) → fs.readFile p = .ok bytes →
       countTokensOne fs tokenize mp false p tc bc
         = (tokenize bytes,
            evictOldestCacheEntries
              (mapSet tc p ⟨tokenize bytes, stats.mtime, stats.size⟩), bc1)) ∧
    (∀ (fs : FileSys) (tokenize : List Nat → Nat) (mp : Nat) (p : String)
       (tc : List (String × TokenCacheEntry)) (bc : List (String × BinaryCacheEntry))
       (stats : FileStat),
       fs.stat p = .ok stats → stats.size > mp →
       countTokensOne fs tokenize mp false p tc bc = (0, tc, bc)) ∧
    (∀ (fs : FileSys) (tokenize : List Nat → Nat) (mp : Nat) (p : String)
       (tc : List (String × TokenCacheEntry)) (bc bc1 : List (String × BinaryCacheEntry))
       (stats : FileStat),
       fs.stat p = .ok stats → stats.size ≤ mp →
       (∀ e, mapGet tc p = some e → ¬(e.mtime = stats.mtime ∧ e.size = stats.size)) →
       isBinary fs p bc = (true, bc1) →
       countTokensOne fs tokenize mp false p tc bc = (0, tc, bc1)) := by
  refine ⟨?_, ?_, ?_, ?_⟩
  · intro fs tokenize mp p tc bc stats e hstat hbdd hget hm hs
    have hemem : (p, e) ∈ tc := mapGet_mem hget
    have hesize : e.size ≤ mp := hbdd (p, e) hemem
    have hnotbig : ¬stats.size > mp := by omega
    simp [countTokensOne, hstat, hget, hnotbig, hm, hs]
  · intro fs tokenize mp p tc bc bc1 stats e bytes hstat hsize hget hmiss hbin hread
    have hnotbig : ¬stats.size > mp := by omega
    simp [countTokensOne, countTokensRead, hstat, hget, hnotbig, hmiss, hbin, hread]
  · intro fs tokenize mp p tc bc stats hstat hbig
    simp [countTokensOne, hstat, hbig]
  · intro fs tokenize mp p tc bc bc1 stats hstat hsize hmiss hbin
    have hnotbig : ¬stats.size > mp := by omega
    cases hget : mapGet tc p with
    | none => simp [countTokensOne, countTokensRead, hstat, hget, hnotbig, hbin]
    | some e =>
        have := hmiss e hget
        simp [countTokensOne, countTokensRead, hstat, hget, hnotbig, this, hbin]

/-- Counterexample to **C7** as stated: a cached entry for `p` keyed
`(mtime 1, size 1)` while the current stat reports `(mtime 2, size 101)`
with preview ceiling 100 — mtime and size both differ, yet the worker does
not re-read or re-tokenize and leaves the cache entry unchanged; it
contributes 0 because the file now exceeds the preview ceiling. -/
theorem countTokens_recompute_counterexample :
    mapGet [("p", (⟨5, 1, 1⟩ : TokenCacheEntry))] "p" = some ⟨5, 1, 1⟩ ∧
    bigFileFs.stat "p" = .ok ⟨2, 101⟩ ∧
    (⟨5, 1, 1⟩ : TokenCacheEntry).mtime ≠ (2 : Nat) ∧
    countTokensOne bigFileFs (fun _ => 0) 100 false "p"
        [("p", ⟨5, 1, 1⟩)] []
      = (0, [("p", ⟨5, 1, 1⟩)], []) := by
  refine ⟨by simp [mapGet], rfl, by decide, rfl⟩

/-- Witness for `countTokens_cache_correct` at concrete inputs: a cache hit
served on a filesystem whose reads fail, a mismatch re-read on text, a
mismatched too-large file, and a mismatched now-binary file. -/
theorem countTokens_cache_correct_witness :
    (hitFs.stat "p" = .ok ⟨1, 10⟩ ∧
     mapGet [("p", (⟨7, 1, 10⟩ : TokenCacheEntry))] "p" = some ⟨7, 1, 10⟩ ∧
     countTokensOne hitFs (fun _ => 9) 100 false "p" [("p", ⟨7, 1, 10⟩)] []
       = (7, [("p", ⟨7, 1, 10⟩)], [])) ∧
    (textFs.readFile "p" = .ok [1, 2, 3] ∧
     countTokensOne textFs (fun bs => bs.length) 100 false "p"
        [("p", ⟨7, 1, 10⟩)] []
       = (3, evictOldestCacheEntries
            (mapSet [("p", ⟨7, 1, 10⟩)] "p" ⟨3, 2, 10⟩),
          [("p", ⟨false, 2⟩)])) ∧
    (countTokensOne bigFileFs (fun _ => 9) 100 false "p" [] [] = (0, [], [])) ∧
    (countTokensOne binFs (fun _ => 9) 100 false "p" [("p", ⟨7, 1, 10⟩)] []
       = (0, [("p", ⟨7, 1, 10⟩)], [("p", ⟨true, 2⟩)])) := by
  refine ⟨⟨rfl, by simp [mapGet], ?_⟩, ⟨rfl, ?_⟩, ?_, ?_⟩
  · exact countTokens_cache_correct.1 hitFs (fun _ => 9) 100 "p"
      [("p", ⟨7, 1, 10⟩)] [] ⟨1, 10⟩ ⟨7, 1, 10⟩ rfl
      (by unfold TokenCacheBounded; decide) (by simp [mapGet]) rfl rfl
  · exact countTokens_cache_correct.2.1 textFs (fun bs => bs.length) 100 "p"
      [("p", ⟨7, 1, 10⟩)] [] [("p", ⟨false, 2⟩)] ⟨2, 10⟩ ⟨7, 1, 10⟩ [1, 2, 3]
      rfl (by decide) (by simp [mapGet]) (by decide) rfl rfl
  · exact countTokens_cache_correct.2.2.1 bigFileFs (fun _ => 9) 100 "p" [] []
      ⟨2, 101⟩ rfl (by decide)
  · exact countTokens_cache_correct.2.2.2 binFs (fun _ => 9) 100 "p"
      [("p", ⟨7, 1, 10⟩)] [] [("p", ⟨true, 2⟩)] ⟨2, 10⟩ rfl (by decide)
      (by
        intro e he
        simp [mapGet] at he
        rw [← he]
        decide) rfl

/-- Counterexample to **C5** as stated: with the ignore-file absent (stat
fails), two successive `getIgnoreParser` calls for the same root build two
distinct fresh matcher instances (allocation ids 0 and 1) and never touch
the cache — the missing-file result is not cached and the second call does
not return the same instance. -/
theorem getIgnoreParser_missing_not_cached_counterexample :
    failFs.stat ("r" ++ "/.gitignore") = .error () ∧
    (getIgnoreParser failFs (fun _ => "") "r" ⟨[], 0⟩).1.pid = 0 ∧
    (getIgnoreParser failFs (fun _ => "") "r"
        (getIgnoreParser failFs (fun _ => "") "r" ⟨[], 0⟩).2).1.pid = 1 ∧
    (getIgnoreParser failFs (fun _ => "") "r"
        (getIgnoreParser failFs (fun _ => "") "r" ⟨[], 0⟩).2).2.cache = [] :=
  ⟨rfl, rfl, rfl, rfl⟩

/-- **C5 (amended).** With the ignore-file present and its mtime matching the
cached entry, `getIgnoreParser` returns the cached matcher instance and
leaves the state unchanged. With the ignore-file absent (stat fails), it
builds a fresh default-only matcher on every call without caching it: the
cache is untouched and a second call returns a distinct new instance. -/
theorem getIgnoreParser_cache_behavior :
    (∀ (fs : FileSys) (dec : List Nat → String) (root : String) (st : IgnState)
       (e : IgnCacheEntry) (stats : FileStat),
       fs.stat (root ++ "/.gitignore") = .ok stats →
       mapGet st.cache root = some e → e.mtime = stats.mtime →
       getIgnoreParser fs dec root st = (e.parser, st)) ∧
    (∀ (fs : FileSys) (dec : List Nat → String) (root : String) (st : IgnState),
       fs.stat (root ++ "/.gitignore") = .error () →
       getIgnoreParser fs dec root st
         = (⟨st.nextId, DEFAULT_IGNORE_PATTERNS⟩,
            { st with nextId := st.nextId + 1 }) ∧
       (getIgnoreParser fs dec root
          (getIgnoreParser fs dec root st).2).1.pid
         ≠ (getIgnoreParser fs dec root st).1.pid ∧
       (getIgnoreParser fs dec root st).2.cache = st.cache) := by
  constructor
  · intro fs dec root st e stats hstat hget hm
    simp [getIgnoreParser, hstat, hget, hm]
  · intro fs dec root st hstat
    have h1 : getIgnoreParser fs dec root st
        = (⟨st.nextId, DEFAULT_IGNORE_PATTERNS⟩,
           { st with nextId := st.nextId + 1 }) := by
      simp [getIgnoreParser, hstat]
    refine ⟨h1, ?_, by rw [h1]⟩
    rw [h1]
    have h2 : getIgnoreParser fs dec root { st with nextId := st.nextId + 1 }
        = (⟨st.nextId + 1, DEFAULT_IGNORE_PATTERNS⟩,
           { st with nextId := st.nextId + 1 + 1 }) := by
      simp [getIgnoreParser, hstat]
    rw [h2]
    simp

/-- Witness for `getIgnoreParser_cache_behavior`: a cache hit on a present
ignore-file, and the fresh-instance behavior on a missing one. -/
theorem getIgnoreParser_cache_behavior_witness :
    ((⟨fun _ => .ok ⟨5, 3⟩, fun _ => .error ()⟩ : FileSys).stat ("r" ++ "/.gitignore")
        = .ok ⟨5, 3⟩ ∧
     mapGet [("r", (⟨⟨3, [".git/", ".git"]⟩, 5⟩ : IgnCacheEntry))] "r"
        = some ⟨⟨3, [".git/", ".git"]⟩, 5⟩ ∧
     getIgnoreParser ⟨fun _ => .ok ⟨5, 3⟩, fun _ => .error ()⟩ (fun _ => "") "r"
        ⟨[("r", ⟨⟨3, [".git/", ".git"]⟩, 5⟩)], 7⟩
       = (⟨3, [".git/", ".git"]⟩, ⟨[("r", ⟨⟨3, [".git/", ".git"]⟩, 5⟩)], 7⟩)) ∧
    (failFs.stat ("r" ++ "/.gitignore") = .error () ∧
     getIgnoreParser failFs (fun _ => "") "r" ⟨[], 0⟩
       = (⟨0, DEFAULT_IGNORE_PATTERNS⟩, ⟨[], 1⟩) ∧
     (getIgnoreParser failFs (fun _ => "") "r"
        (getIgnoreParser failFs (fun _ => "") "r" ⟨[], 0⟩).2).1.pid
       ≠ (getIgnoreParser failFs (fun _ => "") "r" ⟨[], 0⟩).1.pid ∧
     (getIgnoreParser failFs (fun _ => "") "r" ⟨[], 0⟩).2.cache = []) := by
  constructor
  · refine ⟨rfl, by simp [mapGet], ?_⟩
    exact getIgnoreParser_cache_behavior.1 ⟨fun _ => .ok ⟨5, 3⟩, fun _ => .error ()⟩
      (fun _ => "") "r" ⟨[("r", ⟨⟨3, [".git/", ".git"]⟩, 5⟩)], 7⟩
      ⟨⟨3, [".git/", ".git"]⟩, 5⟩ ⟨5, 3⟩ rfl (by simp [mapGet]) rfl
  · refine ⟨rfl, ?_⟩
    exact getIgnoreParser_cache_behavior.2 failFs (fun _ => "") "r" ⟨[], 0⟩ rfl

/-- Counterexample to **C4** as stated: a nonempty workspace map whose single
entry has an empty file list — the total set of files to render is empty —
yields the bare wrapper markup, not the empty string. -/
theorem fileMap_multiRoot_empty_files_counterexample :
    (⟨"n", "w", []⟩ : WorkspaceEntry).files = [] ∧
    generateFileMapMultiRoot [("w", ⟨"n", "w", []⟩)] none
      = "<file_map>\n\n</file_map>" ∧
    "<file_map>\n\n</file_map>" ≠ "" := by
  refine ⟨rfl, ?_, by decide⟩
  rfl

/-- **C4 (amended).** `generateFileMap` returns the empty string, with no
wrapping markup, whenever its file list is empty. `generateFileMapMultiRoot`
returns the empty string exactly when the workspace map itself is empty; a
nonempty map all of whose entries carry empty file lists instead yields the
bare wrapper `<file_map>\n\n</file_map>`. -/
theorem fileMap_empty_contract :
    (∀ (root : String) (sel : Option (List String)), generateFileMap [] root sel = "") ∧
    (∀ sel : Option (List String), generateFileMapMultiRoot [] sel = "") ∧
    (∀ (sel : Option (List String)) (key : String) (e : WorkspaceEntry),
       e.files = [] →
       generateFileMapMultiRoot [(key, e)] sel = "<file_map>\n\n</file_map>") := by
  refine ⟨fun root sel => rfl, fun sel => rfl, ?_⟩
  intro sel key e he
  obtain ⟨n, w, fl⟩ := e
  simp only at he
  subst he
  rfl

/-- Witness for `fileMap_empty_contract` at a concrete workspace entry with
an empty file list. -/
theorem fileMap_empty_contract_witness :
    (⟨"name", "/w", []⟩ : WorkspaceEntry).files = [] ∧
    generateFileMapMultiRoot [("/w", ⟨"name", "/w", []⟩)] none
      = "<file_map>\n\n</file_map>" :=
  ⟨rfl, fileMap_empty_contract.2.2 none "/w" ⟨"name", "/w", []⟩ rfl⟩

end ContextCraft
